import Mathlib

/-!
Verification of the markdownlang execution engine (`src/parser.ts`,
`src/runner.ts`) against its natural-language specification.

The embedding models JavaScript runtime values that can appear in a parsed
program (JSON Schemas, template bindings, provider messages) as the inductive
type `Json` below.  JavaScript objects are modelled as ordered association
lists (JS objects preserve insertion order for non-integer string keys and
cannot contain duplicate keys; where a proof needs the no-duplicate-keys
property it is taken as an explicit hypothesis).  JS numbers are modelled as
integers: no claim under verification depends on non-integral numerics.
Recursive functions over `Json` are defined with an explicit fuel argument
(`sizeOf` provides an adequate fuel bound); fuel-independence lemmas recover
the usual recursion equations.
-/

/-- A JavaScript/JSON runtime value. -/
inductive Json where
  | null
  | bool (b : Bool)
  | num (n : Int)
  | str (s : String)
  | arr (elems : List Json)
  | obj (fields : List (String × Json))

/-- JS truthiness: `null`, `false`, `0` and `""` are falsy; every object and
array (even empty) is truthy. -/
def Json.truthy : Json → Bool
  | .null => false
  | .bool b => b
  | .num n => n != 0
  | .str s => s != ""
  | .arr _ => true
  | .obj _ => true

/-- `typeof v === "object"` in JS: true for `null`, arrays and plain objects. -/
def Json.isObjectType : Json → Bool
  | .null => true
  | .arr _ => true
  | .obj _ => true
  | _ => false

/-- Decimal digits of a natural number, most significant first
(fuel-indexed; `n + 1` is always enough fuel). -/
def natToDecAux : Nat → Nat → List Char
  | 0, _ => []
  | fuel + 1, n =>
    if n < 10 then [Nat.digitChar n]
    else natToDecAux fuel (n / 10) ++ [Nat.digitChar (n % 10)]

/-- Decimal rendering of a natural number, as JS `String(n)` produces it. -/
def natToDec (n : Nat) : String := String.mk (natToDecAux (n + 1) n)

/-- Decimal rendering of an integer, as JS `String(n)` produces it. -/
def intToDec (n : Int) : String :=
  if n < 0 then "-" ++ natToDec n.natAbs else natToDec n.natAbs

/-- Value of a decimal digit list (left inverse of `natToDecAux`). -/
def decValAux (cs : List Char) : Nat :=
  cs.foldl (fun acc c => acc * 10 + (c.toNat - '0'.toNat)) 0

theorem decValAux_append_singleton (cs : List Char) (c : Char) :
    decValAux (cs ++ [c]) = decValAux cs * 10 + (c.toNat - '0'.toNat) := by
  simp [decValAux, List.foldl_append]

theorem digitChar_toNat_sub (m : Nat) (h : m < 10) :
    (Nat.digitChar m).toNat - '0'.toNat = m := by
  interval_cases m <;> decide

theorem decValAux_natToDecAux : ∀ (fuel n : Nat), n < fuel →
    decValAux (natToDecAux fuel n) = n := by
  intro fuel
  induction fuel with
  | zero => intro n h; omega
  | succ fuel ih =>
    intro n hn
    show decValAux (if n < 10 then [Nat.digitChar n]
      else natToDecAux fuel (n / 10) ++ [Nat.digitChar (n % 10)]) = n
    by_cases h : n < 10
    · simp only [h, if_true]
      have hd : decValAux [Nat.digitChar n] = (Nat.digitChar n).toNat - '0'.toNat := by
        simp [decValAux]
      rw [hd, digitChar_toNat_sub n h]
    · simp only [h, if_false]
      rw [decValAux_append_singleton]
      rw [ih (n / 10) (by omega)]
      rw [digitChar_toNat_sub (n % 10) (Nat.mod_lt _ (by omega))]
      omega

theorem natToDec_injective : Function.Injective natToDec := by
  intro a b h
  have hd : natToDecAux (a + 1) a = natToDecAux (b + 1) b := congrArg String.data h
  have ha := decValAux_natToDecAux (a + 1) a (by omega)
  rw [hd, decValAux_natToDecAux (b + 1) b (by omega)] at ha
  exact ha.symm

/-! ### Association-list operations mirroring JS object access -/

/-- Property read `o[k]` on an object given by its ordered field list
(`undefined` is `none`). -/
def objGet : List (String × Json) → String → Option Json
  | [], _ => none
  | (k', v) :: rest, k => if k' = k then some v else objGet rest k

@[simp] theorem objGet_nil (k : String) : objGet [] k = none := rfl

theorem objGet_cons (k₀ : String) (v₀ : Json) (rest : List (String × Json))
    (k : String) :
    objGet ((k₀, v₀) :: rest) k = if k₀ = k then some v₀ else objGet rest k := rfl

/-- Keys of an association list. -/
def keysOf (l : List (String × Json)) : List String := l.map Prod.fst

@[simp] theorem keysOf_nil : keysOf [] = [] := rfl

@[simp] theorem keysOf_cons (kv : String × Json) (l : List (String × Json)) :
    keysOf (kv :: l) = kv.1 :: keysOf l := rfl

@[simp] theorem keysOf_append (l₁ l₂ : List (String × Json)) :
    keysOf (l₁ ++ l₂) = keysOf l₁ ++ keysOf l₂ := by
  simp [keysOf]

/-- Property write `o[k] = v`: replaces the value in place when the key is
present (JS object keys are unique, so replacing the first occurrence is the
JS update-in-place), otherwise appends the new key at the end (JS insertion
order). -/
def objSet : List (String × Json) → String → Json → List (String × Json)
  | [], k, v => [(k, v)]
  | (k₀, v₀) :: rest, k, v =>
    if k₀ = k then (k, v) :: rest else (k₀, v₀) :: objSet rest k v

/-- Sequence of property writes: `for (k, v) of es: acc[k] = v`. -/
def insertAll (acc : List (String × Json)) :
    List (String × Json) → List (String × Json)
  | [] => acc
  | (k, v) :: rest => insertAll (objSet acc k v) rest

theorem objGet_append_left (l₁ l₂ : List (String × Json)) (k : String)
    (h : k ∈ keysOf l₁) : objGet (l₁ ++ l₂) k = objGet l₁ k := by
  induction l₁ with
  | nil => simp at h
  | cons kv rest ih =>
    obtain ⟨k₀, v₀⟩ := kv
    show objGet ((k₀, v₀) :: (rest ++ l₂)) k = objGet ((k₀, v₀) :: rest) k
    unfold objGet
    by_cases hk : k₀ = k
    · rw [if_pos hk, if_pos hk]
    · rw [if_neg hk, if_neg hk]
      apply ih
      simp only [keysOf_cons, List.mem_cons] at h
      rcases h with h | h
      · exact absurd h.symm hk
      · exact h

theorem objGet_append_right (l₁ l₂ : List (String × Json)) (k : String)
    (h : k ∉ keysOf l₁) : objGet (l₁ ++ l₂) k = objGet l₂ k := by
  induction l₁ with
  | nil => simp
  | cons kv rest ih =>
    obtain ⟨k₀, v₀⟩ := kv
    simp only [keysOf_cons, List.mem_cons, not_or] at h
    have hne : k₀ ≠ k := fun he => h.1 he.symm
    show objGet ((k₀, v₀) :: (rest ++ l₂)) k = objGet l₂ k
    rw [objGet_cons, if_neg hne]
    exact ih h.2

theorem objGet_objSet_self (l : List (String × Json)) (k : String) (v : Json) :
    objGet (objSet l k v) k = some v := by
  induction l with
  | nil => simp [objSet, objGet]
  | cons kv rest ih =>
    obtain ⟨k₀, v₀⟩ := kv
    unfold objSet
    by_cases hk : k₀ = k
    · rw [if_pos hk]
      simp [objGet]
    · rw [if_neg hk]
      simp only [objGet, if_neg hk]
      exact ih

theorem objGet_objSet_ne (l : List (String × Json)) (k k' : String) (v : Json)
    (h : k ≠ k') : objGet (objSet l k v) k' = objGet l k' := by
  induction l with
  | nil => simp [objSet, objGet, if_neg h]
  | cons kv rest ih =>
    obtain ⟨k₀, v₀⟩ := kv
    unfold objSet
    by_cases hk : k₀ = k
    · rw [if_pos hk]
      simp only [objGet, if_neg h]
      rw [if_neg (fun he : k₀ = k' => h (hk ▸ he))]
    · rw [if_neg hk]
      simp only [objGet]
      by_cases hk' : k₀ = k'
      · rw [if_pos hk', if_pos hk']
      · rw [if_neg hk', if_neg hk']
        exact ih

theorem keysOf_objSet (l : List (String × Json)) (k : String) (v : Json) :
    keysOf (objSet l k v) = if k ∈ keysOf l then keysOf l else keysOf l ++ [k] := by
  induction l with
  | nil => simp [objSet, keysOf]
  | cons kv rest ih =>
    obtain ⟨k₀, v₀⟩ := kv
    unfold objSet
    by_cases hk : k₀ = k
    · rw [if_pos hk]
      subst hk
      simp [keysOf]
    · rw [if_neg hk]
      simp only [keysOf, List.map_cons] at ih ⊢
      rw [ih]
      have hne : ¬(k = k₀) := fun he => hk he.symm
      by_cases hm : k ∈ rest.map Prod.fst
      · rw [if_pos hm, if_pos (by simp [hm])]
      · rw [if_neg hm, if_neg (by simp [hm, hne])]
        simp

theorem nodup_keysOf_objSet (l : List (String × Json)) (k : String) (v : Json)
    (h : (keysOf l).Nodup) : (keysOf (objSet l k v)).Nodup := by
  rw [keysOf_objSet]
  split
  · exact h
  · rename_i hk
    simpa using List.Nodup.append h (List.nodup_singleton k) (by simpa using hk)

theorem mem_objSet (l : List (String × Json)) (k : String) (v : Json)
    (kv : String × Json) (h : kv ∈ objSet l k v) : kv ∈ l ∨ kv = (k, v) := by
  induction l with
  | nil => right; simpa [objSet] using h
  | cons e rest ih =>
    obtain ⟨k₀, v₀⟩ := e
    unfold objSet at h
    by_cases hk : k₀ = k
    · rw [if_pos hk] at h
      rcases List.mem_cons.mp h with h' | h'
      · right; exact h'
      · left; exact List.mem_cons_of_mem _ h'
    · rw [if_neg hk] at h
      rcases List.mem_cons.mp h with h' | h'
      · left; rw [h']; exact List.mem_cons_self _ _
      · rcases ih h' with h'' | h''
        · left; exact List.mem_cons_of_mem _ h''
        · right; exact h''

theorem mem_insertAll (es : List (String × Json)) :
    ∀ acc kv, kv ∈ insertAll acc es → kv ∈ acc ∨ kv ∈ es := by
  induction es with
  | nil => intro acc kv h; left; exact h
  | cons e rest ih =>
    intro acc kv h
    obtain ⟨k, v⟩ := e
    rcases ih (objSet acc k v) kv h with h' | h'
    · rcases mem_objSet acc k v kv h' with h'' | h''
      · left; exact h''
      · right; simp [h'']
    · right; simp [h']

theorem nodup_keysOf_insertAll (es : List (String × Json)) :
    ∀ acc, (keysOf acc).Nodup → (keysOf (insertAll acc es)).Nodup := by
  induction es with
  | nil => intro acc h; exact h
  | cons e rest ih =>
    intro acc h
    obtain ⟨k, v⟩ := e
    exact ih (objSet acc k v) (nodup_keysOf_objSet acc k v h)

theorem keysOf_mem_of_mem (l : List (String × Json)) (kv : String × Json)
    (h : kv ∈ l) : kv.1 ∈ keysOf l := List.mem_map_of_mem Prod.fst h

theorem objSet_append_of_not_mem (l : List (String × Json)) (k : String)
    (v : Json) (h : k ∉ keysOf l) : objSet l k v = l ++ [(k, v)] := by
  induction l with
  | nil => simp [objSet]
  | cons e rest ih =>
    obtain ⟨k₀, v₀⟩ := e
    simp only [keysOf_cons, List.mem_cons, not_or] at h
    unfold objSet
    rw [if_neg (fun he => h.1 he.symm)]
    rw [ih h.2]
    simp

/-- Replaying an association list with no duplicate keys by property writes
reproduces it unchanged. -/
theorem insertAll_eq_append (es : List (String × Json)) :
    ∀ acc, (∀ k ∈ keysOf es, k ∉ keysOf acc) → (keysOf es).Nodup →
    insertAll acc es = acc ++ es := by
  induction es with
  | nil => intro acc _ _; simp [insertAll]
  | cons e rest ih =>
    intro acc hdisj hes
    obtain ⟨k, v⟩ := e
    simp only [keysOf_cons] at hdisj hes
    rw [List.nodup_cons] at hes
    have hstep : ∀ k' ∈ keysOf rest, k' ∉ keysOf (acc ++ [(k, v)]) := by
      intro k' hk'
      rw [keysOf_append]
      simp only [List.mem_append, keysOf_cons, keysOf_nil,
        List.mem_singleton, not_or]
      exact ⟨hdisj k' (List.mem_cons_of_mem _ hk'),
        fun he => hes.1 (he ▸ hk')⟩
    show insertAll (objSet acc k v) rest = acc ++ (k, v) :: rest
    rw [objSet_append_of_not_mem acc k v (hdisj k (List.mem_cons_self _ _))]
    rw [ih (acc ++ [(k, v)]) hstep hes.2]
    simp

theorem insertAll_self (es : List (String × Json)) (hes : (keysOf es).Nodup) :
    insertAll [] es = es := by
  rw [insertAll_eq_append es [] (by simp) hes]
  simp

theorem objGet_mem (l : List (String × Json)) (k : String) (v : Json)
    (h : objGet l k = some v) : (k, v) ∈ l := by
  induction l with
  | nil => simp [objGet] at h
  | cons kv rest ih =>
    obtain ⟨k₀, v₀⟩ := kv
    rw [objGet_cons] at h
    by_cases hk : k₀ = k
    · rw [if_pos hk] at h
      injection h with h
      subst hk
      subst h
      exact List.mem_cons_self _ _
    · rw [if_neg hk] at h
      exact List.mem_cons_of_mem _ (ih h)

theorem objGet_eq_none_iff (l : List (String × Json)) (k : String) :
    objGet l k = none ↔ k ∉ keysOf l := by
  induction l with
  | nil => simp [objGet, keysOf]
  | cons kv rest ih =>
    obtain ⟨k₀, v₀⟩ := kv
    unfold objGet
    by_cases hk : k₀ = k
    · simp [hk, keysOf]
    · simp only [if_neg hk, ih, keysOf, List.map_cons, List.mem_cons]
      constructor
      · rintro h (h' | h')
        · exact hk h'.symm
        · exact h h'
      · intro h h'
        exact h (Or.inr h')

/-! ### `Object.entries` / `Object.keys` and size bookkeeping -/

/-- `Object.entries(v)`: fields of an object, indexed elements of an array,
indexed single-character strings of a string, and `[]` for other primitives
(the normalizer only ever reaches this on truthy object-typed values). -/
def jsEntries : Json → List (String × Json)
  | .obj fs => fs
  | .arr xs => xs.enum.map (fun p => (natToDec p.1, p.2))
  | .str s => s.data.enum.map (fun p => (natToDec p.1, Json.str (String.mk [p.2])))
  | _ => []

/-- `Object.keys(v)`. -/
def jsKeys (j : Json) : List String := keysOf (jsEntries j)

mutual

/-- A computable structural size for `Json`, used as the fuel measure for the
recursive functions of the embedding. -/
def jsize : Json → Nat
  | .null => 1
  | .bool _ => 1
  | .num _ => 1
  | .str s => 1 + s.length
  | .arr xs => 1 + jsizeList xs
  | .obj fs => 1 + jsizeFields fs

def jsizeList : List Json → Nat
  | [] => 1
  | x :: rest => 1 + jsize x + jsizeList rest

def jsizeFields : List (String × Json) → Nat
  | [] => 1
  | (_, v) :: rest => 1 + jsize v + jsizeFields rest

end

theorem jsize_pos (j : Json) : 1 ≤ jsize j := by
  cases j <;> simp [jsize]

theorem jsize_lt_of_mem_fields (fs : List (String × Json)) (k : String)
    (v : Json) (h : (k, v) ∈ fs) : jsize v < jsizeFields fs := by
  induction fs with
  | nil => simp at h
  | cons kv rest ih =>
    obtain ⟨k₀, v₀⟩ := kv
    rcases List.mem_cons.mp h with h' | h'
    · have : v = v₀ := congrArg Prod.snd h'
      subst this
      simp [jsizeFields]
      omega
    · have := ih h'
      simp [jsizeFields]
      omega

theorem jsize_lt_of_mem_list (xs : List Json) (x : Json) (h : x ∈ xs) :
    jsize x < jsizeList xs := by
  induction xs with
  | nil => simp at h
  | cons a rest ih =>
    rcases List.mem_cons.mp h with h' | h'
    · subst h'
      simp [jsizeList]
      omega
    · have := ih h'
      simp [jsizeList]
      omega

theorem mem_of_mem_enum {α : Type} {l : List α} {p : Nat × α}
    (h : p ∈ l.enum) : p.2 ∈ l := by
  have := List.snd_mem_of_mem_enum h
  exact this

/-- Values produced by `Object.entries` are no larger than the input. -/
theorem jsEntries_jsize_le (j : Json) (k : String) (v : Json)
    (h : (k, v) ∈ jsEntries j) : jsize v ≤ jsize j := by
  cases j with
  | obj fs =>
    have h' : (k, v) ∈ fs := h
    have h1 := jsize_lt_of_mem_fields fs k v h'
    simp only [jsize]
    omega
  | arr xs =>
    simp only [jsEntries, List.mem_map] at h
    obtain ⟨⟨i, x⟩, hx, heq⟩ := h
    have hv : x = v := congrArg Prod.snd heq
    subst hv
    have h1 := jsize_lt_of_mem_list xs x (mem_of_mem_enum hx)
    simp only [jsize]
    omega
  | str s =>
    simp only [jsEntries, List.mem_map] at h
    obtain ⟨⟨i, c⟩, hc, heq⟩ := h
    have hv : Json.str (String.mk [c]) = v := congrArg Prod.snd heq
    subst hv
    have hmem : c ∈ s.data := mem_of_mem_enum hc
    have hdata : s.data.length = s.length := rfl
    have hlen : 1 ≤ s.length := by
      have hne : s.data ≠ [] := fun he => by simp [he] at hmem
      have hpos : 0 < s.data.length := List.length_pos.mpr hne
      omega
    have e1 : jsize (Json.str (String.mk [c])) = 2 := rfl
    have e2 : jsize (Json.str s) = 1 + s.length := rfl
    omega
  | null => simp [jsEntries] at h
  | bool b => simp [jsEntries] at h
  | num n => simp [jsEntries] at h

/-- On objects and arrays the entry values are strictly smaller. -/
theorem jsEntries_jsize_lt (j : Json) (k : String) (v : Json)
    (hj : j.isObjectType = true) (hne : j ≠ Json.null)
    (h : (k, v) ∈ jsEntries j) : jsize v < jsize j := by
  cases j with
  | obj fs =>
    have h1 := jsize_lt_of_mem_fields fs k v h
    simp only [jsize]
    omega
  | arr xs =>
    simp only [jsEntries, List.mem_map] at h
    obtain ⟨⟨i, x⟩, hx, heq⟩ := h
    have hv : x = v := congrArg Prod.snd heq
    subst hv
    have h1 := jsize_lt_of_mem_list xs x (mem_of_mem_enum hx)
    simp only [jsize]
    omega
  | null => exact absurd rfl hne
  | str s => simp [Json.isObjectType] at hj
  | bool b => simp [Json.isObjectType] at hj
  | num n => simp [Json.isObjectType] at hj

theorem jsEntries_keys_nodup_arr (xs : List Json) :
    (keysOf (jsEntries (Json.arr xs))).Nodup := by
  simp only [jsEntries, keysOf, List.map_map]
  have : (List.map (Prod.fst ∘ fun p => (natToDec p.1, p.2)) xs.enum) =
      List.map (natToDec ∘ Prod.fst) xs.enum := rfl
  rw [this, ← List.map_map, List.enum_map_fst]
  exact (List.nodup_range _).map natToDec_injective

theorem jsEntries_keys_nodup_str (s : String) :
    (keysOf (jsEntries (Json.str s))).Nodup := by
  simp only [jsEntries, keysOf, List.map_map]
  have : (List.map (Prod.fst ∘ fun p =>
      (natToDec p.1, Json.str (String.mk [p.2]))) s.data.enum) =
      List.map (natToDec ∘ Prod.fst) s.data.enum := rfl
  rw [this, ← List.map_map, List.enum_map_fst]
  exact (List.nodup_range _).map natToDec_injective

/-- Well-formedness of a JS value: every object node in the tree has
pairwise-distinct keys.  Every value reachable in the JS runtime satisfies
this (JS objects cannot carry duplicate keys). -/
inductive WfKeys : Json → Prop
  | null : WfKeys Json.null
  | bool (b : Bool) : WfKeys (Json.bool b)
  | num (n : Int) : WfKeys (Json.num n)
  | str (s : String) : WfKeys (Json.str s)
  | arr (xs : List Json) (h : ∀ x ∈ xs, WfKeys x) : WfKeys (Json.arr xs)
  | obj (fs : List (String × Json)) (hnd : (keysOf fs).Nodup)
      (h : ∀ kv ∈ fs, WfKeys kv.2) : WfKeys (Json.obj fs)

theorem wfKeys_jsEntries (j : Json) (hj : WfKeys j) (k : String) (v : Json)
    (h : (k, v) ∈ jsEntries j) : WfKeys v := by
  cases hj with
  | obj fs hnd hwf => exact hwf (k, v) h
  | arr xs hwf =>
    simp only [jsEntries, List.mem_map] at h
    obtain ⟨⟨i, x⟩, hx, heq⟩ := h
    have hv : x = v := congrArg Prod.snd heq
    exact hv ▸ hwf x (mem_of_mem_enum hx)
  | str s =>
    simp only [jsEntries, List.mem_map] at h
    obtain ⟨⟨i, c⟩, hc, heq⟩ := h
    have hv : Json.str (String.mk [c]) = v := congrArg Prod.snd heq
    exact hv ▸ WfKeys.str _
  | null => simp [jsEntries] at h
  | bool b => simp [jsEntries] at h
  | num n => simp [jsEntries] at h

theorem jsEntries_keys_nodup (j : Json) (hj : WfKeys j) :
    (keysOf (jsEntries j)).Nodup := by
  cases hj with
  | obj fs hnd _ => exact hnd
  | arr xs _ => exact jsEntries_keys_nodup_arr xs
  | str s => exact jsEntries_keys_nodup_str s
  | null => simp [jsEntries]
  | bool b => simp [jsEntries]
  | num n => simp [jsEntries]

/-! ### The strict-mode schema normalizer (`prepareSchemaForStrictMode`) -/

/-- The fixed allow-list of schema keywords retained by strict-mode
preparation (runner.ts lines 19-32). -/
def supportedKeys : List String :=
  ["type", "properties", "required", "items", "description", "enum", "const",
   "anyOf", "oneOf", "$ref", "$defs", "additionalProperties"]

/-- The copy loop of `prepareSchemaForStrictMode` (runner.ts lines 34-39):
`result[key] = value` for every entry whose key is supported, in entry
order; unsupported keys are silently skipped. -/
def copySupported (es : List (String × Json)) : List (String × Json) :=
  insertAll [] (es.filter fun kv => supportedKeys.contains kv.1)

theorem mem_copySupported (es : List (String × Json)) (kv : String × Json)
    (h : kv ∈ copySupported es) : kv ∈ es ∧ kv.1 ∈ supportedKeys := by
  rcases mem_insertAll _ [] kv h with h' | h'
  · simp at h'
  · have := List.mem_filter.mp h'
    exact ⟨this.1, by simpa using this.2⟩

theorem nodup_keysOf_copySupported (es : List (String × Json)) :
    (keysOf (copySupported es)).Nodup :=
  nodup_keysOf_insertAll _ [] (by simp)

theorem copySupported_eq_filter (es : List (String × Json))
    (h : (keysOf es).Nodup) :
    copySupported es = es.filter fun kv => supportedKeys.contains kv.1 := by
  apply insertAll_self
  have hsub : (keysOf (es.filter fun kv => supportedKeys.contains kv.1)).Sublist
      (keysOf es) := List.Sublist.map Prod.fst (List.filter_sublist es)
  exact h.sublist hsub

theorem objGet_filter_key (q : String → Bool) (es : List (String × Json))
    (k : String) :
    objGet (es.filter fun kv => q kv.1) k =
      if q k then objGet es k else none := by
  induction es with
  | nil => simp
  | cons kv rest ih =>
    obtain ⟨k₀, v₀⟩ := kv
    by_cases hq : q k₀
    · rw [List.filter_cons_of_pos (by simpa using hq)]
      rw [objGet_cons, objGet_cons]
      by_cases hk : k₀ = k
      · subst hk
        rw [if_pos rfl, if_pos rfl, if_pos hq]
      · rw [if_neg hk, if_neg hk]
        exact ih
    · rw [List.filter_cons_of_neg (by simpa using hq)]
      rw [ih, objGet_cons]
      by_cases hk : k₀ = k
      · subst hk
        rw [if_neg hq, if_neg hq]
      · rw [if_neg hk]

theorem objGet_copySupported (es : List (String × Json)) (k : String)
    (h : (keysOf es).Nodup) :
    objGet (copySupported es) k =
      if supportedKeys.contains k then objGet es k else none := by
  rw [copySupported_eq_filter es h, objGet_filter_key]

/-- Failure-propagating map over the values of an entry list (the
`newProps[key] = prepareSchemaForStrictMode(value)` loop combined with
JS exception propagation). -/
def mapOptionValues (f : Json → Option Json) :
    List (String × Json) → Option (List (String × Json))
  | [] => some []
  | (k, v) :: rest =>
    match f v, mapOptionValues f rest with
    | some nv, some nrest => some ((k, nv) :: nrest)
    | _, _ => none

/-- Failure-propagating map over a list (`anyOf.map(prepareSchemaForStrictMode)`
combined with JS exception propagation). -/
def mapOption (f : Json → Option Json) : List Json → Option (List Json)
  | [] => some []
  | x :: rest =>
    match f x, mapOption f rest with
    | some nx, some nrest => some (nx :: nrest)
    | _, _ => none

theorem mapOptionValues_congr (f g : Json → Option Json)
    (es : List (String × Json)) (h : ∀ kv ∈ es, f kv.2 = g kv.2) :
    mapOptionValues f es = mapOptionValues g es := by
  induction es with
  | nil => rfl
  | cons kv rest ih =>
    obtain ⟨k, v⟩ := kv
    unfold mapOptionValues
    rw [h (k, v) (List.mem_cons_self _ _),
      ih (fun kv hkv => h kv (List.mem_cons_of_mem _ hkv))]

theorem mapOption_congr (f g : Json → Option Json) (xs : List Json)
    (h : ∀ x ∈ xs, f x = g x) : mapOption f xs = mapOption g xs := by
  induction xs with
  | nil => rfl
  | cons x rest ih =>
    unfold mapOption
    rw [h x (List.mem_cons_self _ _),
      ih (fun x hx => h x (List.mem_cons_of_mem _ hx))]

theorem mapOptionValues_keys (f : Json → Option Json)
    (es nes : List (String × Json)) (h : mapOptionValues f es = some nes) :
    keysOf nes = keysOf es := by
  induction es generalizing nes with
  | nil =>
    simp only [mapOptionValues, Option.some_inj] at h
    subst h; rfl
  | cons kv rest ih =>
    obtain ⟨k, v⟩ := kv
    unfold mapOptionValues at h
    cases hv : f v with
    | none => rw [hv] at h; exact absurd h (by simp)
    | some nv =>
      rw [hv] at h
      cases hrest : mapOptionValues f rest with
      | none => rw [hrest] at h; exact absurd h (by simp)
      | some nrest =>
        rw [hrest] at h
        simp only [Option.some_inj] at h
        subst h
        simp [ih nrest hrest]

theorem mapOptionValues_mem (f : Json → Option Json)
    (es nes : List (String × Json)) (h : mapOptionValues f es = some nes) :
    ∀ kv' ∈ nes, ∃ kv ∈ es, kv.1 = kv'.1 ∧ f kv.2 = some kv'.2 := by
  induction es generalizing nes with
  | nil =>
    simp only [mapOptionValues, Option.some_inj] at h
    subst h
    intro kv' h'
    simp at h'
  | cons kv rest ih =>
    obtain ⟨k, v⟩ := kv
    unfold mapOptionValues at h
    cases hv : f v with
    | none => rw [hv] at h; exact absurd h (by simp)
    | some nv =>
      rw [hv] at h
      cases hrest : mapOptionValues f rest with
      | none => rw [hrest] at h; exact absurd h (by simp)
      | some nrest =>
        rw [hrest] at h
        simp only [Option.some_inj] at h
        subst h
        intro kv' h'
        rcases List.mem_cons.mp h' with h'' | h''
        · exact ⟨(k, v), List.mem_cons_self _ _, by rw [h''],
            by rw [h'']; exact hv⟩
        · obtain ⟨kv₀, hm, hfst, hval⟩ := ih nrest hrest kv' h''
          exact ⟨kv₀, List.mem_cons_of_mem _ hm, hfst, hval⟩

theorem mapOptionValues_of_forall (f : Json → Option Json)
    (es : List (String × Json)) (h : ∀ kv ∈ es, f kv.2 = some kv.2) :
    mapOptionValues f es = some es := by
  induction es with
  | nil => rfl
  | cons kv rest ih =>
    obtain ⟨k, v⟩ := kv
    unfold mapOptionValues
    rw [h (k, v) (List.mem_cons_self _ _),
      ih (fun kv hkv => h kv (List.mem_cons_of_mem _ hkv))]

theorem mapOption_mem (f : Json → Option Json) (xs ys : List Json)
    (h : mapOption f xs = some ys) :
    ∀ y ∈ ys, ∃ x ∈ xs, f x = some y := by
  induction xs generalizing ys with
  | nil =>
    simp only [mapOption, Option.some_inj] at h
    subst h
    intro y hy
    simp at hy
  | cons x rest ih =>
    unfold mapOption at h
    cases hx : f x with
    | none => rw [hx] at h; exact absurd h (by simp)
    | some nx =>
      rw [hx] at h
      cases hrest : mapOption f rest with
      | none => rw [hrest] at h; exact absurd h (by simp)
      | some nrest =>
        rw [hrest] at h
        simp only [Option.some_inj] at h
        subst h
        intro y hy
        rcases List.mem_cons.mp hy with h'' | h''
        · exact ⟨x, List.mem_cons_self _ _, h'' ▸ hx⟩
        · obtain ⟨x₀, hm, hval⟩ := ih nrest hrest y h''
          exact ⟨x₀, List.mem_cons_of_mem _ hm, hval⟩

theorem mapOption_of_forall (f : Json → Option Json) (xs : List Json)
    (h : ∀ x ∈ xs, f x = some x) : mapOption f xs = some xs := by
  induction xs with
  | nil => rfl
  | cons x rest ih =>
    unfold mapOption
    rw [h x (List.mem_cons_self _ _),
      ih (fun x hx => h x (List.mem_cons_of_mem _ hx))]

/-- `result.type === "tag"`: strict equality of a possibly-absent property
against a string literal. -/
def isTypeTag (o : Option Json) (tag : String) : Bool :=
  match o with
  | some (Json.str s) => s = tag
  | _ => false

/-- Runner.ts lines 41-54: if `result.type === "object" && result.properties`,
force `required` to the full property-name list, force
`additionalProperties = false`, and rebuild `properties` with every value
recursively prepared (`Option.map` models JS exception propagation through
the assignment).  The three writes happen in source order; `required` is
computed from the original `properties` value (`Object.keys` runs before the
rebuild, and the rebuild preserves keys). -/
def normObjStep (norm : Json → Option Json) (base : List (String × Json)) :
    Option (List (String × Json)) :=
  match objGet base "properties" with
  | some p =>
    if isTypeTag (objGet base "type") "object" && p.truthy then
      Option.map
        (fun newEntries => objSet (objSet (objSet base
          "required" (Json.arr ((jsKeys p).map Json.str)))
          "additionalProperties" (Json.bool false))
          "properties" (Json.obj (insertAll [] newEntries)))
        (mapOptionValues norm (jsEntries p))
    else some base
  | none => some base

/-- Runner.ts lines 56-58: if `result.type === "array" && result.items`,
recursively prepare `items`.  The object step never writes `type` or
`items`, so both reads come unchanged from the copied result. -/
def normItemStep (norm : Json → Option Json)
    (base b2 : List (String × Json)) : Option (List (String × Json)) :=
  match objGet base "items" with
  | some it =>
    if isTypeTag (objGet base "type") "array" && it.truthy then
      Option.map (fun ni => objSet b2 "items" ni) (norm it)
    else some b2
  | none => some b2

/-- The `result.anyOf = result.anyOf.map(...)` write: JS throws a `TypeError`
(modelled as `none`) when the truthy `anyOf` is not an array, since only
arrays have `.map`. -/
def anyOfMapResult (n : Json → Option Json) (b3 : List (String × Json))
    (a : Json) : Option Json :=
  match a with
  | Json.arr xs =>
    Option.map (fun nxs => Json.obj (objSet b3 "anyOf" (Json.arr nxs)))
      (mapOption n xs)
  | _ => none

/-- Runner.ts lines 60-64: if `result.anyOf` is truthy, map the preparation
over it.  The earlier steps never write `anyOf`, so the read comes unchanged
from the copied result. -/
def normAnyOfStep (norm : Json → Option Json)
    (base b3 : List (String × Json)) : Option Json :=
  match objGet base "anyOf" with
  | some a =>
    if a.truthy then anyOfMapResult norm b3 a
    else some (Json.obj b3)
  | none => some (Json.obj b3)

/-- One unfolding of `prepareSchemaForStrictMode` (runner.ts lines 13-67),
with the recursive occurrences abstracted as `norm`. -/
def normBody (norm : Json → Option Json) (j : Json) : Option Json :=
  if !(j.truthy && j.isObjectType) then some j
  else
    Option.bind (normObjStep norm (copySupported (jsEntries j))) (fun b2 =>
      Option.bind (normItemStep norm (copySupported (jsEntries j)) b2)
        (fun b3 => normAnyOfStep norm (copySupported (jsEntries j)) b3))

/-- Fuel-indexed recursion for `prepareSchemaForStrictMode`. -/
def normF : Nat → Json → Option Json
  | 0, _ => none
  | fuel + 1, j => normBody (normF fuel) j

/-- `prepareSchemaForStrictMode` (runner.ts lines 13-67): `jsize` is an
adequate fuel bound, as the fuel-independence lemma below shows. -/
def prepareSchemaForStrictMode (j : Json) : Option Json := normF (jsize j) j

/-! ### Unfolding equations and congruence for the normalizer -/

theorem normObjStep_none (n : Json → Option Json) (base : List (String × Json))
    (h : objGet base "properties" = none) : normObjStep n base = some base := by
  unfold normObjStep
  rw [h]

theorem normObjStep_some (n : Json → Option Json) (base : List (String × Json))
    (p : Json) (h : objGet base "properties" = some p) :
    normObjStep n base =
      if isTypeTag (objGet base "type") "object" && p.truthy then
        Option.map
          (fun newEntries => objSet (objSet (objSet base
            "required" (Json.arr ((jsKeys p).map Json.str)))
            "additionalProperties" (Json.bool false))
            "properties" (Json.obj (insertAll [] newEntries)))
          (mapOptionValues n (jsEntries p))
      else some base := by
  unfold normObjStep
  rw [h]

theorem normItemStep_none (n : Json → Option Json)
    (base b2 : List (String × Json)) (h : objGet base "items" = none) :
    normItemStep n base b2 = some b2 := by
  unfold normItemStep
  rw [h]

theorem normItemStep_some (n : Json → Option Json)
    (base b2 : List (String × Json)) (it : Json)
    (h : objGet base "items" = some it) :
    normItemStep n base b2 =
      if isTypeTag (objGet base "type") "array" && it.truthy then
        Option.map (fun ni => objSet b2 "items" ni) (n it)
      else some b2 := by
  unfold normItemStep
  rw [h]

theorem normAnyOfStep_none (n : Json → Option Json)
    (base b3 : List (String × Json)) (h : objGet base "anyOf" = none) :
    normAnyOfStep n base b3 = some (Json.obj b3) := by
  unfold normAnyOfStep
  rw [h]

theorem normAnyOfStep_some (n : Json → Option Json)
    (base b3 : List (String × Json)) (a : Json)
    (h : objGet base "anyOf" = some a) :
    normAnyOfStep n base b3 =
      if a.truthy then anyOfMapResult n b3 a
      else some (Json.obj b3) := by
  unfold normAnyOfStep
  rw [h]

theorem anyOfMapResult_arr (n : Json → Option Json)
    (b3 : List (String × Json)) (xs : List Json) :
    anyOfMapResult n b3 (Json.arr xs) =
      Option.map (fun nxs => Json.obj (objSet b3 "anyOf" (Json.arr nxs)))
        (mapOption n xs) := rfl

theorem normBody_guard_false (n : Json → Option Json) (j : Json)
    (h : (j.truthy && j.isObjectType) = false) : normBody n j = some j := by
  unfold normBody
  rw [h]
  rfl

theorem normBody_guard_true (n : Json → Option Json) (j : Json)
    (h : (j.truthy && j.isObjectType) = true) :
    normBody n j =
      Option.bind (normObjStep n (copySupported (jsEntries j))) (fun b2 =>
        Option.bind (normItemStep n (copySupported (jsEntries j)) b2)
          (fun b3 => normAnyOfStep n (copySupported (jsEntries j)) b3)) := by
  unfold normBody
  rw [h]
  rfl

theorem normObjStep_congr (n₁ n₂ : Json → Option Json)
    (base : List (String × Json))
    (h : ∀ p, objGet base "properties" = some p →
      ∀ kv ∈ jsEntries p, n₁ kv.2 = n₂ kv.2) :
    normObjStep n₁ base = normObjStep n₂ base := by
  cases hp : objGet base "properties" with
  | none => rw [normObjStep_none n₁ base hp, normObjStep_none n₂ base hp]
  | some p =>
    rw [normObjStep_some n₁ base p hp, normObjStep_some n₂ base p hp,
      mapOptionValues_congr n₁ n₂ (jsEntries p) (h p hp)]

theorem normItemStep_congr (n₁ n₂ : Json → Option Json)
    (base : List (String × Json))
    (h : ∀ it, objGet base "items" = some it → n₁ it = n₂ it)
    (b2 : List (String × Json)) :
    normItemStep n₁ base b2 = normItemStep n₂ base b2 := by
  cases hit : objGet base "items" with
  | none => rw [normItemStep_none n₁ base b2 hit, normItemStep_none n₂ base b2 hit]
  | some it =>
    rw [normItemStep_some n₁ base b2 it hit, normItemStep_some n₂ base b2 it hit,
      h it hit]

theorem normAnyOfStep_congr (n₁ n₂ : Json → Option Json)
    (base : List (String × Json))
    (h : ∀ xs, objGet base "anyOf" = some (Json.arr xs) →
      ∀ x ∈ xs, n₁ x = n₂ x)
    (b3 : List (String × Json)) :
    normAnyOfStep n₁ base b3 = normAnyOfStep n₂ base b3 := by
  cases ha : objGet base "anyOf" with
  | none => rw [normAnyOfStep_none n₁ base b3 ha, normAnyOfStep_none n₂ base b3 ha]
  | some a =>
    rw [normAnyOfStep_some n₁ base b3 a ha, normAnyOfStep_some n₂ base b3 a ha]
    cases a with
    | arr xs =>
      rw [anyOfMapResult_arr, anyOfMapResult_arr,
        mapOption_congr n₁ n₂ xs (h xs ha)]
    | null => rfl
    | bool b => rfl
    | num n => rfl
    | str s => rfl
    | obj fs => rfl

theorem normBody_congr (n₁ n₂ : Json → Option Json) (j : Json)
    (h : ∀ v, jsize v < jsize j → n₁ v = n₂ v) :
    normBody n₁ j = normBody n₂ j := by
  by_cases hg : (j.truthy && j.isObjectType) = true
  · have hand := hg
    rw [Bool.and_eq_true] at hand
    have hTruthy : j.truthy = true := hand.1
    have hObjT : j.isObjectType = true := hand.2
    have hnn : j ≠ Json.null := by
      intro he
      rw [he] at hTruthy
      exact absurd hTruthy (by simp [Json.truthy])
    have hbase : ∀ kv ∈ copySupported (jsEntries j), jsize kv.2 < jsize j := by
      intro kv hkv
      obtain ⟨hmem, _⟩ := mem_copySupported _ kv hkv
      obtain ⟨k, v⟩ := kv
      exact jsEntries_jsize_lt j k v hObjT hnn hmem
    have hp : ∀ p, objGet (copySupported (jsEntries j)) "properties" = some p →
        ∀ kv ∈ jsEntries p, n₁ kv.2 = n₂ kv.2 := by
      intro p hp kv hkv
      have hps : jsize p < jsize j := hbase _ (objGet_mem _ _ _ hp)
      obtain ⟨k, v⟩ := kv
      have hle := jsEntries_jsize_le p k v hkv
      exact h v (by omega)
    have hIt : ∀ it, objGet (copySupported (jsEntries j)) "items" = some it →
        n₁ it = n₂ it := by
      intro it hit
      exact h it (hbase _ (objGet_mem _ _ _ hit))
    have hAny : ∀ xs, objGet (copySupported (jsEntries j)) "anyOf" =
        some (Json.arr xs) → ∀ x ∈ xs, n₁ x = n₂ x := by
      intro xs hxs x hx
      have h1 : jsize (Json.arr xs) < jsize j := hbase _ (objGet_mem _ _ _ hxs)
      have h2 : jsize x < jsizeList xs := jsize_lt_of_mem_list xs x hx
      have h3 : jsize (Json.arr xs) = 1 + jsizeList xs := rfl
      exact h x (by omega)
    rw [normBody_guard_true n₁ j hg, normBody_guard_true n₂ j hg,
      normObjStep_congr n₁ n₂ _ hp]
    cases hb2 : normObjStep n₂ (copySupported (jsEntries j)) with
    | none => rfl
    | some b2 =>
      simp only [Option.some_bind]
      rw [normItemStep_congr n₁ n₂ _ hIt b2]
      cases hb3 : normItemStep n₂ (copySupported (jsEntries j)) b2 with
      | none => rfl
      | some b3 =>
        simp only [Option.some_bind]
        exact normAnyOfStep_congr n₁ n₂ _ hAny b3
  · rw [Bool.not_eq_true] at hg
    rw [normBody_guard_false n₁ j hg, normBody_guard_false n₂ j hg]

/-- Fuel independence: any fuel of at least `jsize j` computes the same
result. -/
theorem normF_congr : ∀ (n : Nat) (j : Json), jsize j ≤ n →
    ∀ f g, jsize j ≤ f → jsize j ≤ g → normF f j = normF g j := by
  intro n
  induction n using Nat.strong_induction_on with
  | _ n ih =>
    intro j hjn f g hf hg
    have h1 := jsize_pos j
    obtain ⟨f', rfl⟩ : ∃ f', f = f' + 1 := ⟨f - 1, by omega⟩
    obtain ⟨g', rfl⟩ : ∃ g', g = g' + 1 := ⟨g - 1, by omega⟩
    show normBody (normF f') j = normBody (normF g') j
    apply normBody_congr
    intro v hv
    exact ih (jsize v) (by omega) v (le_refl _) f' g' (by omega) (by omega)

/-- The defining fixpoint equation of `prepareSchemaForStrictMode`. -/
theorem prepare_eq (j : Json) :
    prepareSchemaForStrictMode j = normBody prepareSchemaForStrictMode j := by
  show normF (jsize j) j = normBody prepareSchemaForStrictMode j
  have h1 := jsize_pos j
  obtain ⟨m, hm⟩ : ∃ m, jsize j = m + 1 := ⟨jsize j - 1, by omega⟩
  rw [hm]
  show normBody (normF m) j = normBody prepareSchemaForStrictMode j
  apply normBody_congr
  intro v hv
  show normF m v = normF (jsize v) v
  exact normF_congr (jsize v) v (le_refl _) m (jsize v) (by omega) (le_refl _)

/-! ### Inversion lemmas for the normalizer stages -/

/-- Writing back the value a key already holds leaves the object unchanged. -/
theorem objSet_self (l : List (String × Json)) (k : String) (v : Json)
    (h : objGet l k = some v) : objSet l k v = l := by
  induction l with
  | nil => simp at h
  | cons kv rest ih =>
    obtain ⟨k₀, v₀⟩ := kv
    rw [objGet_cons] at h
    unfold objSet
    by_cases hk : k₀ = k
    · rw [if_pos hk]
      rw [if_pos hk] at h
      injection h with h
      rw [hk, h]
    · rw [if_neg hk] at h
      rw [if_neg hk, ih h]

theorem mem_keysOf_objSet (l : List (String × Json)) (k k' : String) (v : Json)
    (h : k' ∈ keysOf (objSet l k v)) : k' ∈ keysOf l ∨ k' = k := by
  rw [keysOf_objSet] at h
  split at h
  · left; exact h
  · rcases List.mem_append.mp h with h' | h'
    · left; exact h'
    · right; simpa using h'

theorem normObjStep_inv (n : Json → Option Json) (base b2 : List (String × Json))
    (h : normObjStep n base = some b2) :
    (objGet base "properties" = none ∧ b2 = base) ∨
    (∃ p, objGet base "properties" = some p ∧
      (isTypeTag (objGet base "type") "object" && p.truthy) = false ∧
      b2 = base) ∨
    (∃ p nes, objGet base "properties" = some p ∧
      (isTypeTag (objGet base "type") "object" && p.truthy) = true ∧
      mapOptionValues n (jsEntries p) = some nes ∧
      b2 = objSet (objSet (objSet base
        "required" (Json.arr ((jsKeys p).map Json.str)))
        "additionalProperties" (Json.bool false))
        "properties" (Json.obj (insertAll [] nes))) := by
  cases hp : objGet base "properties" with
  | none =>
    rw [normObjStep_none n base hp] at h
    injection h with h
    exact Or.inl ⟨rfl, h.symm⟩
  | some p =>
    rw [normObjStep_some n base p hp] at h
    by_cases hc : (isTypeTag (objGet base "type") "object" && p.truthy) = true
    · rw [if_pos hc] at h
      rw [Option.map_eq_some'] at h
      obtain ⟨nes, hnes, hb2⟩ := h
      exact Or.inr (Or.inr ⟨p, nes, rfl, hc, hnes, hb2.symm⟩)
    · rw [if_neg hc] at h
      injection h with h
      exact Or.inr (Or.inl ⟨p, rfl, Bool.not_eq_true _ ▸ Bool.of_not_eq_true hc,
        h.symm⟩)

theorem normItemStep_inv (n : Json → Option Json)
    (base b2 b3 : List (String × Json))
    (h : normItemStep n base b2 = some b3) :
    (objGet base "items" = none ∧ b3 = b2) ∨
    (∃ it, objGet base "items" = some it ∧
      (isTypeTag (objGet base "type") "array" && it.truthy) = false ∧
      b3 = b2) ∨
    (∃ it ni, objGet base "items" = some it ∧
      (isTypeTag (objGet base "type") "array" && it.truthy) = true ∧
      n it = some ni ∧ b3 = objSet b2 "items" ni) := by
  cases hit : objGet base "items" with
  | none =>
    rw [normItemStep_none n base b2 hit] at h
    injection h with h
    exact Or.inl ⟨rfl, h.symm⟩
  | some it =>
    rw [normItemStep_some n base b2 it hit] at h
    by_cases hc : (isTypeTag (objGet base "type") "array" && it.truthy) = true
    · rw [if_pos hc] at h
      rw [Option.map_eq_some'] at h
      obtain ⟨ni, hni, hb3⟩ := h
      exact Or.inr (Or.inr ⟨it, ni, rfl, hc, hni, hb3.symm⟩)
    · rw [if_neg hc] at h
      injection h with h
      exact Or.inr (Or.inl ⟨it, rfl, Bool.of_not_eq_true hc, h.symm⟩)

theorem normAnyOfStep_inv (n : Json → Option Json)
    (base b3 : List (String × Json)) (t : Json)
    (h : normAnyOfStep n base b3 = some t) :
    (objGet base "anyOf" = none ∧ t = Json.obj b3) ∨
    (∃ a, objGet base "anyOf" = some a ∧ a.truthy = false ∧
      t = Json.obj b3) ∨
    (∃ xs nxs, objGet base "anyOf" = some (Json.arr xs) ∧
      mapOption n xs = some nxs ∧
      t = Json.obj (objSet b3 "anyOf" (Json.arr nxs))) := by
  cases ha : objGet base "anyOf" with
  | none =>
    rw [normAnyOfStep_none n base b3 ha] at h
    injection h with h
    exact Or.inl ⟨rfl, h.symm⟩
  | some a =>
    rw [normAnyOfStep_some n base b3 a ha] at h
    by_cases htr : a.truthy = true
    · rw [if_pos htr] at h
      cases a with
      | arr xs =>
        rw [anyOfMapResult_arr] at h
        rw [Option.map_eq_some'] at h
        obtain ⟨nxs, hnxs, ht⟩ := h
        exact Or.inr (Or.inr ⟨xs, nxs, rfl, hnxs, ht.symm⟩)
      | null => exact absurd h (by simp [anyOfMapResult])
      | bool b => exact absurd h (by simp [anyOfMapResult])
      | num m => exact absurd h (by simp [anyOfMapResult])
      | str s => exact absurd h (by simp [anyOfMapResult])
      | obj fs => exact absurd h (by simp [anyOfMapResult])
    · rw [if_neg htr] at h
      injection h with h
      exact Or.inr (Or.inl ⟨a, rfl, Bool.of_not_eq_true htr, h.symm⟩)

theorem normBody_some_decomp (n : Json → Option Json) (j t : Json)
    (hg : (j.truthy && j.isObjectType) = true) (h : normBody n j = some t) :
    ∃ b2 b3, normObjStep n (copySupported (jsEntries j)) = some b2 ∧
      normItemStep n (copySupported (jsEntries j)) b2 = some b3 ∧
      normAnyOfStep n (copySupported (jsEntries j)) b3 = some t := by
  rw [normBody_guard_true n j hg] at h
  cases hb2 : normObjStep n (copySupported (jsEntries j)) with
  | none => rw [hb2] at h; exact absurd h (by simp)
  | some b2 =>
    rw [hb2] at h
    simp only [Option.some_bind] at h
    cases hb3 : normItemStep n (copySupported (jsEntries j)) b2 with
    | none => rw [hb3] at h; exact absurd h (by simp)
    | some b3 =>
      rw [hb3] at h
      simp only [Option.some_bind] at h
      exact ⟨b2, b3, rfl, hb3, h⟩

/-! ### Key bookkeeping through the normalizer stages -/

theorem mem_keysOf_iff (l : List (String × Json)) (k : String) :
    k ∈ keysOf l ↔ ∃ v, (k, v) ∈ l := by
  unfold keysOf
  rw [List.mem_map]
  constructor
  · rintro ⟨⟨k₀, v₀⟩, hm, rfl⟩
    exact ⟨v₀, hm⟩
  · rintro ⟨v, hm⟩
    exact ⟨(k, v), hm, rfl⟩

theorem keysOf_copySupported_supported (es : List (String × Json)) :
    ∀ k ∈ keysOf (copySupported es), k ∈ supportedKeys := by
  intro k hk
  obtain ⟨v, hv⟩ := (mem_keysOf_iff _ k).mp hk
  exact (mem_copySupported es (k, v) hv).2

theorem normObjStep_keys_supported (n : Json → Option Json)
    (base b2 : List (String × Json)) (h : normObjStep n base = some b2)
    (hbase : ∀ k ∈ keysOf base, k ∈ supportedKeys) :
    ∀ k ∈ keysOf b2, k ∈ supportedKeys := by
  rcases normObjStep_inv n base b2 h with ⟨_, rfl⟩ | ⟨p, _, _, rfl⟩ |
    ⟨p, nes, _, _, _, rfl⟩
  · exact hbase
  · exact hbase
  · intro k hk
    rcases mem_keysOf_objSet _ _ _ _ hk with hk | rfl
    · rcases mem_keysOf_objSet _ _ _ _ hk with hk | rfl
      · rcases mem_keysOf_objSet _ _ _ _ hk with hk | rfl
        · exact hbase k hk
        · decide
      · decide
    · decide

theorem normItemStep_keys_supported (n : Json → Option Json)
    (base b2 b3 : List (String × Json)) (h : normItemStep n base b2 = some b3)
    (hb2 : ∀ k ∈ keysOf b2, k ∈ supportedKeys) :
    ∀ k ∈ keysOf b3, k ∈ supportedKeys := by
  rcases normItemStep_inv n base b2 b3 h with ⟨_, rfl⟩ | ⟨it, _, _, rfl⟩ |
    ⟨it, ni, _, _, _, rfl⟩
  · exact hb2
  · exact hb2
  · intro k hk
    rcases mem_keysOf_objSet _ _ _ _ hk with hk | rfl
    · exact hb2 k hk
    · decide

theorem normAnyOfStep_keys_supported (n : Json → Option Json)
    (base b3 : List (String × Json)) (t : Json)
    (h : normAnyOfStep n base b3 = some t)
    (hb3 : ∀ k ∈ keysOf b3, k ∈ supportedKeys) :
    ∃ tfs, t = Json.obj tfs ∧ ∀ k ∈ keysOf tfs, k ∈ supportedKeys := by
  rcases normAnyOfStep_inv n base b3 t h with ⟨_, rfl⟩ | ⟨a, _, _, rfl⟩ |
    ⟨xs, nxs, _, _, rfl⟩
  · exact ⟨b3, rfl, hb3⟩
  · exact ⟨b3, rfl, hb3⟩
  · refine ⟨_, rfl, ?_⟩
    intro k hk
    rcases mem_keysOf_objSet _ _ _ _ hk with hk | rfl
    · exact hb3 k hk
    · decide

theorem normObjStep_keys_nodup (n : Json → Option Json)
    (base b2 : List (String × Json)) (h : normObjStep n base = some b2)
    (hbase : (keysOf base).Nodup) : (keysOf b2).Nodup := by
  rcases normObjStep_inv n base b2 h with ⟨_, rfl⟩ | ⟨p, _, _, rfl⟩ |
    ⟨p, nes, _, _, _, rfl⟩
  · exact hbase
  · exact hbase
  · exact nodup_keysOf_objSet _ _ _
      (nodup_keysOf_objSet _ _ _ (nodup_keysOf_objSet _ _ _ hbase))

theorem normItemStep_keys_nodup (n : Json → Option Json)
    (base b2 b3 : List (String × Json)) (h : normItemStep n base b2 = some b3)
    (hb2 : (keysOf b2).Nodup) : (keysOf b3).Nodup := by
  rcases normItemStep_inv n base b2 b3 h with ⟨_, rfl⟩ | ⟨it, _, _, rfl⟩ |
    ⟨it, ni, _, _, _, rfl⟩
  · exact hb2
  · exact hb2
  · exact nodup_keysOf_objSet _ _ _ hb2

theorem normAnyOfStep_keys_nodup (n : Json → Option Json)
    (base b3 : List (String × Json)) (t : Json)
    (h : normAnyOfStep n base b3 = some t) (hb3 : (keysOf b3).Nodup) :
    ∃ tfs, t = Json.obj tfs ∧ (keysOf tfs).Nodup := by
  rcases normAnyOfStep_inv n base b3 t h with ⟨_, rfl⟩ | ⟨a, _, _, rfl⟩ |
    ⟨xs, nxs, _, _, rfl⟩
  · exact ⟨b3, rfl, hb3⟩
  · exact ⟨b3, rfl, hb3⟩
  · exact ⟨_, rfl, nodup_keysOf_objSet _ _ _ hb3⟩

/-- Shape of a normalizer result: the input unchanged (non-object inputs) or
an object. -/
theorem normBody_shape (n : Json → Option Json) (j t : Json)
    (h : normBody n j = some t) : t = j ∨ ∃ tfs, t = Json.obj tfs := by
  by_cases hg : (j.truthy && j.isObjectType) = true
  · obtain ⟨b2, b3, _, _, hany⟩ := normBody_some_decomp n j t hg h
    rcases normAnyOfStep_inv n _ b3 t hany with ⟨_, rfl⟩ | ⟨a, _, _, rfl⟩ |
      ⟨xs, nxs, _, _, rfl⟩
    · exact Or.inr ⟨b3, rfl⟩
    · exact Or.inr ⟨b3, rfl⟩
    · exact Or.inr ⟨_, rfl⟩
  · rw [normBody_guard_false n j (Bool.of_not_eq_true hg)] at h
    injection h with h
    exact Or.inl h.symm

/-- A truthy value stays truthy through normalization. -/
theorem norm_preserves_truthy (j t : Json)
    (h : prepareSchemaForStrictMode j = some t) (hj : j.truthy = true) :
    t.truthy = true := by
  rw [prepare_eq] at h
  rcases normBody_shape _ j t h with rfl | ⟨tfs, rfl⟩
  · exact hj
  · rfl

theorem normObjStep_objGet_ne (n : Json → Option Json)
    (base b2 : List (String × Json)) (h : normObjStep n base = some b2)
    (k : String) (h1 : k ≠ "required") (h2 : k ≠ "additionalProperties")
    (h3 : k ≠ "properties") : objGet b2 k = objGet base k := by
  rcases normObjStep_inv n base b2 h with ⟨_, rfl⟩ | ⟨p, _, _, rfl⟩ |
    ⟨p, nes, _, _, _, rfl⟩
  · rfl
  · rfl
  · rw [objGet_objSet_ne _ _ _ _ (fun he => h3 he.symm),
      objGet_objSet_ne _ _ _ _ (fun he => h2 he.symm),
      objGet_objSet_ne _ _ _ _ (fun he => h1 he.symm)]

theorem normItemStep_objGet_ne (n : Json → Option Json)
    (base b2 b3 : List (String × Json)) (h : normItemStep n base b2 = some b3)
    (k : String) (h1 : k ≠ "items") : objGet b3 k = objGet b2 k := by
  rcases normItemStep_inv n base b2 b3 h with ⟨_, rfl⟩ | ⟨it, _, _, rfl⟩ |
    ⟨it, ni, _, _, _, rfl⟩
  · rfl
  · rfl
  · rw [objGet_objSet_ne _ _ _ _ (fun he => h1 he.symm)]

theorem normAnyOfStep_objGet_ne (n : Json → Option Json)
    (base b3 : List (String × Json)) (tfs : List (String × Json))
    (h : normAnyOfStep n base b3 = some (Json.obj tfs))
    (k : String) (h1 : k ≠ "anyOf") : objGet tfs k = objGet b3 k := by
  rcases normAnyOfStep_inv n base b3 _ h with ⟨_, heq⟩ | ⟨a, _, _, heq⟩ |
    ⟨xs, nxs, _, _, heq⟩
  · injection heq with heq
    rw [heq]
  · injection heq with heq
    rw [heq]
  · injection heq with heq
    rw [heq, objGet_objSet_ne _ _ _ _ (fun he => h1 he.symm)]

/-- C8: the top-level keys of any normalizer output object all come from the
fixed allow-list; every unsupported key of the input (`minimum`, `maximum`,
`pattern`, ...) is absent from the output, silently. -/
theorem C8_strict_allow_list (j t : Json) (tfs : List (String × Json))
    (hnorm : prepareSchemaForStrictMode j = some t) (ht : t = Json.obj tfs) :
    ∀ k ∈ keysOf tfs, k ∈ supportedKeys := by
  subst ht
  rw [prepare_eq] at hnorm
  by_cases hg : (j.truthy && j.isObjectType) = true
  · obtain ⟨b2, b3, h2, h3, hany⟩ := normBody_some_decomp _ j _ hg hnorm
    have k0 := keysOf_copySupported_supported (jsEntries j)
    have k2 := normObjStep_keys_supported _ _ _ h2 k0
    have k3 := normItemStep_keys_supported _ _ _ _ h3 k2
    obtain ⟨tfs', heq, hsup⟩ := normAnyOfStep_keys_supported _ _ _ _ hany k3
    injection heq with heq
    exact heq ▸ hsup
  · rw [normBody_guard_false _ j (Bool.of_not_eq_true hg)] at hnorm
    injection hnorm with hnorm
    exfalso
    apply hg
    rw [hnorm]
    rfl

/-- Witness for C8: a schema carrying `minimum` and `pattern` loses exactly
those keys, and the surviving key is on the allow-list. -/
theorem C8_witness :
    prepareSchemaForStrictMode (Json.obj [("type", Json.str "string"),
      ("minimum", Json.num 2), ("pattern", Json.str "a")]) =
      some (Json.obj [("type", Json.str "string")]) ∧
    "type" ∈ supportedKeys := by
  refine ⟨rfl, ?_⟩
  exact C8_strict_allow_list
    (Json.obj [("type", Json.str "string"), ("minimum", Json.num 2),
      ("pattern", Json.str "a")])
    (Json.obj [("type", Json.str "string")])
    [("type", Json.str "string")] rfl rfl "type" (by simp)

/-- Counterexample to C9 as stated: a JSON array is *not* returned unchanged
(`typeof [] === "object"` in JS), it is rebuilt as an object; at input `[]`
the output is `{}`. -/
theorem C9_counterexample :
    prepareSchemaForStrictMode (Json.arr []) = some (Json.obj []) ∧
    Json.obj [] ≠ Json.arr [] :=
  ⟨rfl, fun h => Json.noConfusion h⟩

/-- C9 amended: every input that is `null`, a boolean, a number or a string
is returned unchanged; arrays are instead processed like objects. -/
theorem C9_amended (j : Json) (h : j = Json.null ∨ j.isObjectType = false) :
    prepareSchemaForStrictMode j = some j := by
  rw [prepare_eq]
  apply normBody_guard_false
  rcases h with rfl | h
  · rfl
  · rw [h, Bool.and_false]

/-- Witness for the amended C9 at a number input. -/
theorem C9_witness : prepareSchemaForStrictMode (Json.num 5) = some (Json.num 5) :=
  C9_amended (Json.num 5) (Or.inr rfl)

/-- C1: for an object schema with a `properties` mapping, normalization
forces `required` to exactly the ordered list of all property names, forces
`additionalProperties = false`, and rebuilds `properties` by recursively
normalizing every property value, preserving field order.  The
no-duplicate-key hypotheses hold for every schema the JS runtime can
represent. -/
theorem C1_object_strict (fields props : List (String × Json)) (t : Json)
    (hnd : (keysOf fields).Nodup) (hpnd : (keysOf props).Nodup)
    (hty : objGet fields "type" = some (Json.str "object"))
    (hpr : objGet fields "properties" = some (Json.obj props))
    (hnorm : prepareSchemaForStrictMode (Json.obj fields) = some t) :
    ∃ out nprops, t = Json.obj out ∧
      mapOptionValues prepareSchemaForStrictMode props = some nprops ∧
      keysOf nprops = keysOf props ∧
      objGet out "required" = some (Json.arr ((keysOf props).map Json.str)) ∧
      objGet out "additionalProperties" = some (Json.bool false) ∧
      objGet out "properties" = some (Json.obj nprops) := by
  rw [prepare_eq] at hnorm
  have hg : ((Json.obj fields).truthy && (Json.obj fields).isObjectType) = true := rfl
  obtain ⟨b2, b3, h2, h3, hany⟩ := normBody_some_decomp _ _ _ hg hnorm
  have hjsf : jsEntries (Json.obj fields) = fields := rfl
  have hbase_ty : objGet (copySupported (jsEntries (Json.obj fields))) "type"
      = some (Json.str "object") := by
    rw [hjsf, objGet_copySupported fields "type" hnd, if_pos (by decide)]
    exact hty
  have hbase_pr : objGet (copySupported (jsEntries (Json.obj fields)))
      "properties" = some (Json.obj props) := by
    rw [hjsf, objGet_copySupported fields "properties" hnd, if_pos (by decide)]
    exact hpr
  rcases normObjStep_inv _ _ _ h2 with ⟨hnone, _⟩ | ⟨p, hp, hcond, _⟩ |
    ⟨p, nes, hp, _, hnes, hb2⟩
  · rw [hbase_pr] at hnone
    exact absurd hnone (by simp)
  · rw [hbase_pr] at hp
    injection hp with hp
    subst hp
    rw [hbase_ty] at hcond
    simp [isTypeTag, Json.truthy] at hcond
  · rw [hbase_pr] at hp
    injection hp with hp
    subst hp
    have hjse : jsEntries (Json.obj props) = props := rfl
    rw [hjse] at hnes
    have hkeys : keysOf nes = keysOf props := mapOptionValues_keys _ _ _ hnes
    have hinsert : insertAll [] nes = nes :=
      insertAll_self nes (hkeys ▸ hpnd)
    have hb3eq : b3 = b2 := by
      rcases normItemStep_inv _ _ _ _ h3 with ⟨_, h⟩ | ⟨it, _, _, h⟩ |
        ⟨it, ni, _, hcond2, _, _⟩
      · exact h
      · exact h
      · exfalso
        rw [hbase_ty] at hcond2
        simp [isTypeTag] at hcond2
    rw [hb3eq] at hany
    have hreq2 : objGet b2 "required" =
        some (Json.arr ((keysOf props).map Json.str)) := by
      rw [hb2]
      rw [objGet_objSet_ne _ _ _ _ (by decide),
        objGet_objSet_ne _ _ _ _ (by decide), objGet_objSet_self]
      rfl
    have haP2 : objGet b2 "additionalProperties" = some (Json.bool false) := by
      rw [hb2]
      rw [objGet_objSet_ne _ _ _ _ (by decide), objGet_objSet_self]
    have hpr2 : objGet b2 "properties" = some (Json.obj nes) := by
      rw [hb2, objGet_objSet_self, hinsert]
    rcases normAnyOfStep_inv _ _ _ _ hany with ⟨_, ht⟩ | ⟨a, _, _, ht⟩ |
      ⟨xs, nxs, _, _, ht⟩
    · exact ⟨b2, nes, ht, hnes, hkeys, hreq2, haP2, hpr2⟩
    · exact ⟨b2, nes, ht, hnes, hkeys, hreq2, haP2, hpr2⟩
    · refine ⟨objSet b2 "anyOf" (Json.arr nxs), nes, ht, hnes, hkeys, ?_, ?_, ?_⟩
      · rw [objGet_objSet_ne _ _ _ _ (by decide)]
        exact hreq2
      · rw [objGet_objSet_ne _ _ _ _ (by decide)]
        exact haP2
      · rw [objGet_objSet_ne _ _ _ _ (by decide)]
        exact hpr2

/-- Witness for C1, matching the spec example: an object schema with
properties `a, b` and no `required` gains `required = ["a", "b"]` and
`additionalProperties = false`. -/
theorem C1_witness :
    prepareSchemaForStrictMode (Json.obj [("type", Json.str "object"),
      ("properties", Json.obj [("a", Json.obj [("type", Json.str "string")]),
        ("b", Json.obj [("type", Json.str "integer")])])]) =
      some (Json.obj [("type", Json.str "object"),
        ("properties", Json.obj [("a", Json.obj [("type", Json.str "string")]),
          ("b", Json.obj [("type", Json.str "integer")])]),
        ("required", Json.arr [Json.str "a", Json.str "b"]),
        ("additionalProperties", Json.bool false)]) ∧
    objGet [("type", Json.str "object"),
      ("properties", Json.obj [("a", Json.obj [("type", Json.str "string")]),
        ("b", Json.obj [("type", Json.str "integer")])]),
      ("required", Json.arr [Json.str "a", Json.str "b"]),
      ("additionalProperties", Json.bool false)] "required" =
      some (Json.arr [Json.str "a", Json.str "b"]) := by
  constructor
  · rfl
  · obtain ⟨out, nprops, heq, _, _, hreq, _, _⟩ :=
      C1_object_strict
        [("type", Json.str "object"),
          ("properties", Json.obj [("a", Json.obj [("type", Json.str "string")]),
            ("b", Json.obj [("type", Json.str "integer")])])]
        [("a", Json.obj [("type", Json.str "string")]),
          ("b", Json.obj [("type", Json.str "integer")])]
        (Json.obj [("type", Json.str "object"),
          ("properties", Json.obj [("a", Json.obj [("type", Json.str "string")]),
            ("b", Json.obj [("type", Json.str "integer")])]),
          ("required", Json.arr [Json.str "a", Json.str "b"]),
          ("additionalProperties", Json.bool false)])
        (by decide) (by decide) rfl rfl rfl
    injection heq with heq
    rw [heq]
    exact hreq

/-- Copying an object whose keys are all supported and duplicate-free is the
identity. -/
theorem copySupported_eq_self (l : List (String × Json))
    (hsup : ∀ k ∈ keysOf l, k ∈ supportedKeys) (hnd : (keysOf l).Nodup) :
    copySupported l = l := by
  unfold copySupported
  have hfilter : (l.filter fun kv => supportedKeys.contains kv.1) = l := by
    apply List.filter_eq_self.mpr
    intro kv hkv
    have : kv.1 ∈ supportedKeys := hsup kv.1 (keysOf_mem_of_mem l kv hkv)
    simpa using this
  rw [hfilter]
  exact insertAll_self l hnd

/-- Main induction for idempotence of the normalizer. -/
theorem norm_idem_aux : ∀ (n : Nat) (s : Json), jsize s ≤ n → WfKeys s →
    ∀ t, prepareSchemaForStrictMode s = some t →
    prepareSchemaForStrictMode t = some t := by
  intro n
  induction n using Nat.strong_induction_on with
  | _ n ih =>
    intro s hsn hwf t h
    by_cases hg : (s.truthy && s.isObjectType) = true
    case neg =>
      rw [prepare_eq, normBody_guard_false _ s (Bool.of_not_eq_true hg)] at h
      injection h with h
      subst h
      rw [prepare_eq, normBody_guard_false _ s (Bool.of_not_eq_true hg)]
    case pos =>
      rw [prepare_eq] at h
      obtain ⟨b2, b3, h2, h3, hany⟩ := normBody_some_decomp _ s t hg h
      have hand := hg
      rw [Bool.and_eq_true] at hand
      have hnn : s ≠ Json.null := by
        intro he
        rw [he] at hand
        exact absurd hand.1 (by simp [Json.truthy])
      have hbase_nodup : (keysOf (copySupported (jsEntries s))).Nodup :=
        nodup_keysOf_copySupported _
      have hbase_sup : ∀ k ∈ keysOf (copySupported (jsEntries s)),
          k ∈ supportedKeys := keysOf_copySupported_supported _
      have hbase_val : ∀ kv ∈ copySupported (jsEntries s),
          jsize kv.2 < jsize s ∧ WfKeys kv.2 := by
        intro kv hkv
        have hmem := (mem_copySupported _ kv hkv).1
        obtain ⟨k, v⟩ := kv
        exact ⟨jsEntries_jsize_lt s k v hand.2 hnn hmem,
          wfKeys_jsEntries s hwf k v hmem⟩
      have hb2_nodup := normObjStep_keys_nodup _ _ _ h2 hbase_nodup
      have hb2_sup := normObjStep_keys_supported _ _ _ h2 hbase_sup
      have hb3_nodup := normItemStep_keys_nodup _ _ _ _ h3 hb2_nodup
      have hb3_sup := normItemStep_keys_supported _ _ _ _ h3 hb2_sup
      obtain ⟨tfs, ht, htfs_nodup⟩ := normAnyOfStep_keys_nodup _ _ _ _ hany hb3_nodup
      obtain ⟨tfs', ht', htfs_sup⟩ := normAnyOfStep_keys_supported _ _ _ _ hany hb3_sup
      rw [ht] at ht'
      injection ht' with ht'
      subst ht'
      subst ht
      have e32 : ∀ k, k ≠ "items" → objGet b3 k = objGet b2 k :=
        fun k hk => normItemStep_objGet_ne _ _ _ _ h3 k hk
      have et3 : ∀ k, k ≠ "anyOf" → objGet tfs k = objGet b3 k :=
        fun k hk => normAnyOfStep_objGet_ne _ _ _ _ hany k hk
      have e2b : ∀ k, k ≠ "required" → k ≠ "additionalProperties" →
          k ≠ "properties" → objGet b2 k = objGet (copySupported (jsEntries s)) k :=
        fun k ha hb hc => normObjStep_objGet_ne _ _ _ h2 k ha hb hc
      have etype : objGet tfs "type" = objGet (copySupported (jsEntries s)) "type" := by
        rw [et3 _ (by decide), e32 _ (by decide),
          e2b _ (by decide) (by decide) (by decide)]
      have hbase' : copySupported (jsEntries (Json.obj tfs)) = tfs :=
        copySupported_eq_self tfs htfs_sup htfs_nodup
      -- Second pass, object step.
      have star1 : normObjStep prepareSchemaForStrictMode tfs = some tfs := by
        rcases normObjStep_inv _ _ _ h2 with ⟨hnone, hb2e⟩ |
          ⟨p, hp, hcond, hb2e⟩ | ⟨p, nes, hp, hcond, hnes, hb2e⟩
        · apply normObjStep_none
          rw [et3 _ (by decide), e32 _ (by decide), hb2e, hnone]
        · have hpt : objGet tfs "properties" = some p := by
            rw [et3 _ (by decide), e32 _ (by decide), hb2e, hp]
          rw [normObjStep_some _ tfs p hpt, if_neg]
          rw [etype]
          exact fun hc => absurd hc (by rw [hcond]; simp)
        · have hp_wf : WfKeys p := (hbase_val _ (objGet_mem _ _ _ hp)).2
          have hp_sz : jsize p < jsize s := (hbase_val _ (objGet_mem _ _ _ hp)).1
          have hnes_keys : keysOf nes = keysOf (jsEntries p) :=
            mapOptionValues_keys _ _ _ hnes
          have hnes_nodup : (keysOf nes).Nodup :=
            hnes_keys ▸ jsEntries_keys_nodup p hp_wf
          have hinsert : insertAll [] nes = nes := insertAll_self nes hnes_nodup
          have hprops_t : objGet tfs "properties" = some (Json.obj nes) := by
            rw [et3 _ (by decide), e32 _ (by decide), hb2e, objGet_objSet_self,
              hinsert]
          have hcond' := hcond
          rw [Bool.and_eq_true] at hcond'
          have hcond2 : (isTypeTag (objGet tfs "type") "object" &&
              (Json.obj nes).truthy) = true := by
            rw [etype, hcond'.1]
            rfl
          have hpoint : ∀ kv ∈ nes,
              prepareSchemaForStrictMode kv.2 = some kv.2 := by
            intro kv hkv
            obtain ⟨kv₀, hkv₀, _, hval⟩ := mapOptionValues_mem _ _ _ hnes kv hkv
            obtain ⟨k₀, v₀⟩ := kv₀
            have hsz : jsize v₀ ≤ jsize p := jsEntries_jsize_le p k₀ v₀ hkv₀
            have hwf' : WfKeys v₀ := wfKeys_jsEntries p hp_wf k₀ v₀ hkv₀
            exact ih (jsize v₀) (by omega) v₀ (le_refl _) hwf' kv.2 hval
          have hmap2 : mapOptionValues prepareSchemaForStrictMode nes = some nes :=
            mapOptionValues_of_forall _ _ hpoint
          have hreq_t : objGet tfs "required" =
              some (Json.arr ((jsKeys p).map Json.str)) := by
            rw [et3 _ (by decide), e32 _ (by decide), hb2e,
              objGet_objSet_ne _ _ _ _ (by decide),
              objGet_objSet_ne _ _ _ _ (by decide), objGet_objSet_self]
          have haP_t : objGet tfs "additionalProperties" =
              some (Json.bool false) := by
            rw [et3 _ (by decide), e32 _ (by decide), hb2e,
              objGet_objSet_ne _ _ _ _ (by decide), objGet_objSet_self]
          rw [normObjStep_some _ tfs (Json.obj nes) hprops_t, if_pos hcond2]
          have hjse2 : jsEntries (Json.obj nes) = nes := rfl
          rw [hjse2, hmap2]
          simp only [Option.map_some']
          have hkeys2 : jsKeys (Json.obj nes) = jsKeys p := by
            show keysOf nes = keysOf (jsEntries p)
            exact hnes_keys
          rw [hkeys2, hinsert]
          rw [objSet_self tfs "required" _ hreq_t,
            objSet_self tfs "additionalProperties" _ haP_t,
            objSet_self tfs "properties" _ hprops_t]
      -- Second pass, items step.
      have star2 : normItemStep prepareSchemaForStrictMode tfs tfs = some tfs := by
        rcases normItemStep_inv _ _ _ _ h3 with ⟨hnone, hb3e⟩ |
          ⟨it, hit, hcond, hb3e⟩ | ⟨it, ni, hit, hcond, hni, hb3e⟩
        · apply normItemStep_none
          rw [et3 _ (by decide), hb3e,
            e2b _ (by decide) (by decide) (by decide), hnone]
        · have hitt : objGet tfs "items" = some it := by
            rw [et3 _ (by decide), hb3e,
              e2b _ (by decide) (by decide) (by decide), hit]
          rw [normItemStep_some _ tfs tfs it hitt, if_neg]
          rw [etype]
          exact fun hc => absurd hc (by rw [hcond]; simp)
        · have hit_sz : jsize it < jsize s := (hbase_val _ (objGet_mem _ _ _ hit)).1
          have hit_wf : WfKeys it := (hbase_val _ (objGet_mem _ _ _ hit)).2
          have hcond' := hcond
          rw [Bool.and_eq_true] at hcond'
          have hni_tr : ni.truthy = true := norm_preserves_truthy it ni hni hcond'.2
          have hitt : objGet tfs "items" = some ni := by
            rw [et3 _ (by decide), hb3e, objGet_objSet_self]
          have hni_idem : prepareSchemaForStrictMode ni = some ni :=
            ih (jsize it) (by omega) it (le_refl _) hit_wf ni hni
          have hcond2 : (isTypeTag (objGet tfs "type") "array" &&
              ni.truthy) = true := by
            rw [etype, hcond'.1, hni_tr]
            rfl
          rw [normItemStep_some _ tfs tfs ni hitt, if_pos hcond2, hni_idem]
          simp only [Option.map_some']
          rw [objSet_self tfs "items" ni hitt]
      -- Second pass, anyOf step.
      have star3 : normAnyOfStep prepareSchemaForStrictMode tfs tfs =
          some (Json.obj tfs) := by
        rcases normAnyOfStep_inv _ _ _ _ hany with ⟨hnone, hte⟩ |
          ⟨a, ha, hfa, hte⟩ | ⟨xs, nxs, ha, hnxs, hte⟩
        · injection hte with hte
          apply normAnyOfStep_none
          rw [hte, e32 _ (by decide),
            e2b _ (by decide) (by decide) (by decide), hnone]
        · injection hte with hte
          have hat : objGet tfs "anyOf" = some a := by
            rw [hte, e32 _ (by decide),
              e2b _ (by decide) (by decide) (by decide), ha]
          rw [normAnyOfStep_some _ tfs tfs a hat, if_neg]
          rw [hfa]
          simp
        · injection hte with hte
          have hat : objGet tfs "anyOf" = some (Json.arr nxs) := by
            rw [hte, objGet_objSet_self]
          have harr_sz : jsize (Json.arr xs) < jsize s :=
            (hbase_val _ (objGet_mem _ _ _ ha)).1
          have harr_wf : WfKeys (Json.arr xs) :=
            (hbase_val _ (objGet_mem _ _ _ ha)).2
          have hxs_wf : ∀ x ∈ xs, WfKeys x := by
            cases harr_wf with
            | arr _ hall => exact hall
          have hpoint : ∀ y ∈ nxs, prepareSchemaForStrictMode y = some y := by
            intro y hy
            obtain ⟨x, hx, hval⟩ := mapOption_mem _ _ _ hnxs y hy
            have hx_sz : jsize x < jsizeList xs := jsize_lt_of_mem_list xs x hx
            have he : jsize (Json.arr xs) = 1 + jsizeList xs := rfl
            exact ih (jsize x) (by omega) x (le_refl _) (hxs_wf x hx) y hval
          have hmap2 : mapOption prepareSchemaForStrictMode nxs = some nxs :=
            mapOption_of_forall _ _ hpoint
          rw [normAnyOfStep_some _ tfs tfs (Json.arr nxs) hat,
            if_pos (show (Json.arr nxs).truthy = true from rfl),
            anyOfMapResult_arr, hmap2]
          simp only [Option.map_some']
          rw [objSet_self tfs "anyOf" (Json.arr nxs) hat]
      rw [prepare_eq, normBody_guard_true _ (Json.obj tfs)
        (show ((Json.obj tfs).truthy && (Json.obj tfs).isObjectType) = true
          from rfl), hbase', star1]
      simp only [Option.some_bind]
      rw [star2]
      simp only [Option.some_bind]
      exact star3

/-- C2: the normalizer is idempotent.  `WfKeys` (no duplicate object keys
anywhere in the tree) holds for every schema the JS runtime can represent. -/
theorem C2_idempotent (s t : Json) (hwf : WfKeys s)
    (h : prepareSchemaForStrictMode s = some t) :
    prepareSchemaForStrictMode t = some t :=
  norm_idem_aux (jsize s) s (le_refl _) hwf t h

/-- Witness for C2 at a concrete object schema. -/
theorem C2_witness :
    prepareSchemaForStrictMode (Json.obj [("type", Json.str "object"),
      ("properties", Json.obj [("a", Json.obj [("type", Json.str "string")])]),
      ("minimum", Json.num 1)]) =
      some (Json.obj [("type", Json.str "object"),
        ("properties", Json.obj [("a", Json.obj [("type", Json.str "string")])]),
        ("required", Json.arr [Json.str "a"]),
        ("additionalProperties", Json.bool false)]) ∧
    prepareSchemaForStrictMode (Json.obj [("type", Json.str "object"),
      ("properties", Json.obj [("a", Json.obj [("type", Json.str "string")])]),
      ("required", Json.arr [Json.str "a"]),
      ("additionalProperties", Json.bool false)]) =
      some (Json.obj [("type", Json.str "object"),
        ("properties", Json.obj [("a", Json.obj [("type", Json.str "string")])]),
        ("required", Json.arr [Json.str "a"]),
        ("additionalProperties", Json.bool false)]) := by
  have hwfS : WfKeys (Json.obj [("type", Json.str "object"),
      ("properties", Json.obj [("a", Json.obj [("type", Json.str "string")])]),
      ("minimum", Json.num 1)]) := by
    apply WfKeys.obj _ (by decide)
    intro kv hkv
    simp only [List.mem_cons, List.not_mem_nil, or_false] at hkv
    rcases hkv with rfl | rfl | rfl
    · exact WfKeys.str _
    · apply WfKeys.obj _ (by decide)
      intro kv2 hkv2
      simp only [List.mem_cons, List.not_mem_nil, or_false] at hkv2
      rcases hkv2 with rfl
      apply WfKeys.obj _ (by decide)
      intro kv3 hkv3
      simp only [List.mem_cons, List.not_mem_nil, or_false] at hkv3
      rcases hkv3 with rfl
      exact WfKeys.str _
    · exact WfKeys.num _
  constructor
  · rfl
  · exact C2_idempotent (Json.obj [("type", Json.str "object"),
      ("properties", Json.obj [("a", Json.obj [("type", Json.str "string")])]),
      ("minimum", Json.num 1)])
      (Json.obj [("type", Json.str "object"),
        ("properties", Json.obj [("a", Json.obj [("type", Json.str "string")])]),
        ("required", Json.arr [Json.str "a"]),
        ("additionalProperties", Json.bool false)])
      hwfS rfl

/-! ### The template renderer (`renderTemplate`, parser.ts lines 86-97) -/

/-- JS string escaping as performed by `JSON.stringify` on one character. -/
def jsonEscapeChar (c : Char) : List Char :=
  if c = '"' then ['\\', '"']
  else if c = '\\' then ['\\', '\\']
  else if c = '\n' then ['\\', 'n']
  else if c = '\r' then ['\\', 'r']
  else if c = '\t' then ['\\', 't']
  else if c = '\x08' then ['\\', 'b']
  else if c = '\x0c' then ['\\', 'f']
  else if c.toNat < 32 then
    ['\\', 'u', '0', '0', Nat.digitChar (c.toNat / 16), Nat.digitChar (c.toNat % 16)]
  else [c]

/-- `JSON.stringify` of a string value. -/
def jsonQuote (s : String) : String :=
  String.mk ('"' :: (s.data.foldr (fun c acc => jsonEscapeChar c ++ acc) ['"']))

/-- `JSON.stringify(v)`: canonical JSON text, no whitespace. -/
def stringifyF : Nat → Json → String
  | 0, _ => ""
  | _ + 1, Json.null => "null"
  | _ + 1, Json.bool b => if b then "true" else "false"
  | _ + 1, Json.num n => intToDec n
  | _ + 1, Json.str s => jsonQuote s
  | f + 1, Json.arr xs =>
    "[" ++ String.intercalate "," (xs.map (stringifyF f)) ++ "]"
  | f + 1, Json.obj fs =>
    "\x7b" ++ String.intercalate ","
      (fs.map (fun kv => jsonQuote kv.1 ++ ":" ++ stringifyF f kv.2)) ++ "\x7d"

def stringify (j : Json) : String := stringifyF (jsize j) j

/-- `String(v)`: the natural JS string form of a value (arrays join their
recursively stringified elements with commas, `null` elements become the
empty string; plain objects print as `[object Object]`). -/
def jsStringF : Nat → Json → String
  | 0, _ => ""
  | _ + 1, Json.null => "null"
  | _ + 1, Json.bool b => if b then "true" else "false"
  | _ + 1, Json.num n => intToDec n
  | _ + 1, Json.str s => s
  | f + 1, Json.arr xs =>
    String.intercalate "," (xs.map (fun x =>
      match x with
      | Json.null => ""
      | _ => jsStringF f x))
  | _ + 1, Json.obj _ => "[object Object]"

def jsString (j : Json) : String := jsStringF (jsize j) j

/-- The JS regex `\\s` character class (WhiteSpace and LineTerminator code
points), as an explicit character set. -/
def jsWhitespaceChars : List Char :=
  [' ', '\t', '\n', '\r', '\u000b', '\u000c',
   '\u00a0', '\u1680', '\u2000', '\u2001', '\u2002', '\u2003', '\u2004',
   '\u2005', '\u2006', '\u2007', '\u2008', '\u2009', '\u200a', '\u2028',
   '\u2029', '\u202f', '\u205f', '\u3000', '\ufeff']

def jsWhitespace (c : Char) : Bool := jsWhitespaceChars.contains c

/-- The JS regex `\\w` character class: ASCII letters, digits and `_`. -/
def wordChar (c : Char) : Bool := c.isAlphanum || c = '_'

theorem jsWhitespace_not_wordChar (c : Char) (h : jsWhitespace c = true) :
    wordChar c = false := by
  have hall : ∀ x ∈ jsWhitespaceChars, wordChar x = false := by decide
  apply hall
  simpa [jsWhitespace] using h

/-- Tail of the token matcher: greedy `\s*` then the literal `}}`.  Returns
the key, the full matched text, and the remainder. -/
def tryClose (word ws1 afterWord : List Char) :
    Option (String × List Char × List Char) :=
  match afterWord.dropWhile jsWhitespace with
  | '}' :: '}' :: rest4 =>
    some (String.mk word,
      '{' :: '{' :: (ws1 ++ '.' ::
        (word ++ afterWord.takeWhile jsWhitespace ++ ['}', '}'])), rest4)
  | _ => none

/-- Middle of the token matcher: the literal `.` then greedy `\w+`
(`\w+` fails on the empty match). -/
def tryDot (ws1 rest1 : List Char) : Option (String × List Char × List Char) :=
  match rest1 with
  | '.' :: rest2 =>
    if (rest2.takeWhile wordChar).isEmpty then none
    else tryClose (rest2.takeWhile wordChar) ws1
      (rest2.drop (rest2.takeWhile wordChar).length)
  | _ => none

/-- Attempt to match the regex `\{\{\s*\.(\w+)\s*\}\}` at the head of the
character list.  The regex is deterministic here: `\s`, `\w`, `.`, `{` and
`}` are pairwise disjoint character classes, so the greedy scans never need
to backtrack. -/
def tryToken : List Char → Option (String × List Char × List Char)
  | c1 :: c2 :: rest =>
    if c1 = '{' && c2 = '{' then
      tryDot (rest.takeWhile jsWhitespace) (rest.dropWhile jsWhitespace)
    else none
  | _ => none

/-- Replacement text for one matched token (parser.ts lines 90-95):
a bound scalar renders via `String(value)`, a bound object/array via
`JSON.stringify(value)`, an unbound identifier leaves the matched token text
unchanged.  (`key in data` is modelled as lookup in the bindings map; the
prototype chain of a JS object literal is not modelled.) -/
def renderReplacement (data : List (String × Json)) (key : String)
    (matched : List Char) : List Char :=
  match objGet data key with
  | some v => (if v.isObjectType then stringify v else jsString v).data
  | none => matched

/-- Fuel-indexed left-to-right global regex replacement: at each position
either the token matches (emit the replacement, continue after the match —
the replacement itself is never rescanned) or the character is copied. -/
def renderF (data : List (String × Json)) : Nat → List Char → List Char
  | 0, _ => []
  | _ + 1, [] => []
  | f + 1, c :: cs =>
    match tryToken (c :: cs) with
    | some (key, matched, rest) =>
      renderReplacement data key matched ++ renderF data f rest
    | none => c :: renderF data f cs

def renderChars (data : List (String × Json)) (cs : List Char) : List Char :=
  renderF data cs.length cs

/-- `renderTemplate` (parser.ts lines 86-97). -/
def renderTemplate (template : String) (data : List (String × Json)) : String :=
  String.mk (renderChars data template.data)

/-! ### Scanning lemmas for the renderer -/

theorem takeWhile_all_cons_fail (p : Char → Bool) (l₁ : List Char) (c : Char)
    (l₂ : List Char) (h₁ : ∀ x ∈ l₁, p x = true) (hc : p c = false) :
    (l₁ ++ c :: l₂).takeWhile p = l₁ := by
  induction l₁ with
  | nil => simp [List.takeWhile_cons, hc]
  | cons a rest ih =>
    rw [List.cons_append, List.takeWhile_cons,
      h₁ a (List.mem_cons_self _ _)]
    rw [ih (fun x hx => h₁ x (List.mem_cons_of_mem _ hx))]
    rfl

theorem dropWhile_all_cons_fail (p : Char → Bool) (l₁ : List Char) (c : Char)
    (l₂ : List Char) (h₁ : ∀ x ∈ l₁, p x = true) (hc : p c = false) :
    (l₁ ++ c :: l₂).dropWhile p = c :: l₂ := by
  induction l₁ with
  | nil => simp [List.dropWhile_cons, hc]
  | cons a rest ih =>
    rw [List.cons_append, List.dropWhile_cons,
      h₁ a (List.mem_cons_self _ _)]
    exact ih (fun x hx => h₁ x (List.mem_cons_of_mem _ hx))

theorem dropWhile_length_le (p : Char → Bool) (l : List Char) :
    (l.dropWhile p).length ≤ l.length := by
  induction l with
  | nil => simp
  | cons a rest ih =>
    rw [List.dropWhile_cons]
    by_cases hp : p a = true
    · rw [hp]
      simp
      omega
    · rw [Bool.of_not_eq_true hp]
      simp

theorem tryClose_length (word ws1 afterWord : List Char)
    (k : String) (m r : List Char)
    (h : tryClose word ws1 afterWord = some (k, m, r)) :
    r.length + 2 ≤ afterWord.length := by
  unfold tryClose at h
  split at h
  · rename_i rest4 heq
    injection h with h
    injection h with h1 h2
    injection h2 with h2 h3
    subst h3
    have h4 : ('}' :: '}' :: rest4).length ≤ afterWord.length := by
      rw [← heq]
      exact dropWhile_length_le _ _
    simp at h4
    omega
  · exact absurd h (by simp)

theorem tryDot_length (ws1 rest1 : List Char) (k : String) (m r : List Char)
    (h : tryDot ws1 rest1 = some (k, m, r)) : r.length ≤ rest1.length := by
  unfold tryDot at h
  split at h
  · rename_i rest2
    split at h
    · exact absurd h (by simp)
    · have := tryClose_length _ _ _ _ _ _ h
      have hd : (rest2.drop (rest2.takeWhile wordChar).length).length ≤
          rest2.length := by
        rw [List.length_drop]
        omega
      simp only [List.length_cons]
      omega
  · exact absurd h (by simp)

theorem tryToken_length (cs : List Char) (k : String) (m r : List Char)
    (h : tryToken cs = some (k, m, r)) : r.length < cs.length := by
  unfold tryToken at h
  split at h
  · rename_i c1 c2 rest
    split at h
    · have h1 := tryDot_length _ _ _ _ _ h
      have h2 := dropWhile_length_le jsWhitespace rest
      simp only [List.length_cons]
      omega
    · exact absurd h (by simp)
  · exact absurd h (by simp)

theorem tryToken_not_brace (c : Char) (cs : List Char) (h : c ≠ '{') :
    tryToken (c :: cs) = none := by
  cases cs with
  | nil => rfl
  | cons c2 rest =>
    show (if (decide (c = '{') && decide (c2 = '{')) = true then
        tryDot (rest.takeWhile jsWhitespace) (rest.dropWhile jsWhitespace)
      else none) = none
    have hc : (decide (c = '{') && decide (c2 = '{')) = false := by
      simp [h]
    rw [hc]
    rfl

/-! ### Equation lemmas for the renderer -/

theorem renderF_nil (data : List (String × Json)) (f : Nat) :
    renderF data f [] = [] := by
  cases f with
  | zero => rfl
  | succ f => rfl

theorem renderF_cons_none (data : List (String × Json)) (f : Nat) (c : Char)
    (cs : List Char) (h : tryToken (c :: cs) = none) :
    renderF data (f + 1) (c :: cs) = c :: renderF data f cs := by
  show (match tryToken (c :: cs) with
    | some (key, matched, rest) =>
      renderReplacement data key matched ++ renderF data f rest
    | none => c :: renderF data f cs) = c :: renderF data f cs
  rw [h]

theorem renderF_cons_some (data : List (String × Json)) (f : Nat) (c : Char)
    (cs : List Char) (k : String) (m r : List Char)
    (h : tryToken (c :: cs) = some (k, m, r)) :
    renderF data (f + 1) (c :: cs) =
      renderReplacement data k m ++ renderF data f r := by
  show (match tryToken (c :: cs) with
    | some (key, matched, rest) =>
      renderReplacement data key matched ++ renderF data f rest
    | none => c :: renderF data f cs) =
    renderReplacement data k m ++ renderF data f r
  rw [h]

/-- Fuel independence for the renderer. -/
theorem renderF_congr (data : List (String × Json)) :
    ∀ (n : Nat) (cs : List Char), cs.length ≤ n →
    ∀ f g, cs.length ≤ f → cs.length ≤ g →
    renderF data f cs = renderF data g cs := by
  intro n
  induction n using Nat.strong_induction_on with
  | _ n ih =>
    intro cs hn f g hf hg
    cases cs with
    | nil => rw [renderF_nil, renderF_nil]
    | cons c cs' =>
      simp only [List.length_cons] at hn hf hg
      obtain ⟨f', rfl⟩ : ∃ f', f = f' + 1 := ⟨f - 1, by omega⟩
      obtain ⟨g', rfl⟩ : ∃ g', g = g' + 1 := ⟨g - 1, by omega⟩
      cases htk : tryToken (c :: cs') with
      | none =>
        rw [renderF_cons_none data f' c cs' htk,
          renderF_cons_none data g' c cs' htk]
        rw [ih cs'.length (by omega) cs' (le_refl _) f' g' (by omega) (by omega)]
      | some kmr =>
        obtain ⟨k, m, r⟩ := kmr
        rw [renderF_cons_some data f' c cs' k m r htk,
          renderF_cons_some data g' c cs' k m r htk]
        have hr := tryToken_length _ _ _ _ htk
        simp only [List.length_cons] at hr
        rw [ih r.length (by omega) r (le_refl _) f' g' (by omega) (by omega)]

theorem renderChars_nil (data : List (String × Json)) :
    renderChars data [] = [] := rfl

theorem renderChars_cons_none (data : List (String × Json)) (c : Char)
    (cs : List Char) (h : tryToken (c :: cs) = none) :
    renderChars data (c :: cs) = c :: renderChars data cs := by
  unfold renderChars
  rw [show (c :: cs).length = cs.length + 1 from rfl,
    renderF_cons_none data cs.length c cs h]

theorem renderChars_cons_some (data : List (String × Json)) (c : Char)
    (cs : List Char) (k : String) (m r : List Char)
    (h : tryToken (c :: cs) = some (k, m, r)) :
    renderChars data (c :: cs) =
      renderReplacement data k m ++ renderChars data r := by
  unfold renderChars
  rw [show (c :: cs).length = cs.length + 1 from rfl,
    renderF_cons_some data cs.length c cs k m r h]
  have hr := tryToken_length _ _ _ _ h
  simp only [List.length_cons] at hr
  rw [renderF_congr data cs.length r (by omega) cs.length r.length (by omega)
    (le_refl _)]

theorem renderChars_lit_prefix (data : List (String × Json))
    (lit rest : List Char) (hlit : ∀ c ∈ lit, c ≠ '{') :
    renderChars data (lit ++ rest) = lit ++ renderChars data rest := by
  induction lit with
  | nil => simp
  | cons c lit' ih =>
    rw [List.cons_append,
      renderChars_cons_none data c (lit' ++ rest)
        (tryToken_not_brace c _ (hlit c (List.mem_cons_self _ _))),
      ih (fun x hx => hlit x (List.mem_cons_of_mem _ hx))]
    rfl

/-! ### Token recognition -/

/-- Character list of a full template token
`{{` `ws1` `.` `key` `ws2` `}}`. -/
def tokChars (w1 k w2 : List Char) : List Char :=
  '{' :: '{' :: (w1 ++ '.' :: (k ++ w2 ++ ['}', '}']))

theorem tryToken_braces (rest : List Char) :
    tryToken ('{' :: '{' :: rest) =
      tryDot (rest.takeWhile jsWhitespace) (rest.dropWhile jsWhitespace) := by
  show (if (decide ('{' = '{') && decide ('{' = '{')) = true then
      tryDot (rest.takeWhile jsWhitespace) (rest.dropWhile jsWhitespace)
    else none) = _
  rw [if_pos (by decide)]

theorem tryDot_dot (ws1 rest2 : List Char) :
    tryDot ws1 ('.' :: rest2) =
      if (rest2.takeWhile wordChar).isEmpty then none
      else tryClose (rest2.takeWhile wordChar) ws1
        (rest2.drop (rest2.takeWhile wordChar).length) := rfl

theorem tryClose_close (word ws1 w2 rest : List Char)
    (hw2 : ∀ c ∈ w2, jsWhitespace c = true) :
    tryClose word ws1 (w2 ++ '}' :: '}' :: rest) =
      some (String.mk word,
        '{' :: '{' :: (ws1 ++ '.' :: (word ++ w2 ++ ['}', '}'])), rest) := by
  unfold tryClose
  rw [dropWhile_all_cons_fail jsWhitespace w2 '}' _ hw2 (by decide),
    takeWhile_all_cons_fail jsWhitespace w2 '}' _ hw2 (by decide)]
  rfl

/-- The token matcher recognizes a well-formed token at the head of the
input, consuming exactly the token, for any continuation. -/
theorem tryToken_token (w1 k w2 rest : List Char)
    (hw1 : ∀ c ∈ w1, jsWhitespace c = true)
    (hw2 : ∀ c ∈ w2, jsWhitespace c = true)
    (hk1 : k ≠ []) (hk2 : ∀ c ∈ k, wordChar c = true) :
    tryToken (tokChars w1 k w2 ++ rest) =
      some (String.mk k, tokChars w1 k w2, rest) := by
  have hshape : tokChars w1 k w2 ++ rest =
      '{' :: '{' :: (w1 ++ '.' :: (k ++ (w2 ++ '}' :: '}' :: rest))) := by
    unfold tokChars
    simp [List.append_assoc]
  rw [hshape, tryToken_braces,
    takeWhile_all_cons_fail jsWhitespace w1 '.' _ hw1 (by decide),
    dropWhile_all_cons_fail jsWhitespace w1 '.' _ hw1 (by decide),
    tryDot_dot]
  have htk : ((k ++ (w2 ++ '}' :: '}' :: rest)).takeWhile wordChar) = k := by
    cases w2 with
    | nil => exact takeWhile_all_cons_fail wordChar k '}' _ hk2 (by decide)
    | cons cw w2' =>
      show (k ++ cw :: (w2' ++ '}' :: '}' :: rest)).takeWhile wordChar = k
      exact takeWhile_all_cons_fail wordChar k cw _ hk2
        (jsWhitespace_not_wordChar cw (hw2 cw (List.mem_cons_self _ _)))
  rw [htk, if_neg (by simpa using hk1), List.drop_left,
    tryClose_close k w1 w2 rest hw2]
  rfl

/-! ### Specification-level view of a template: literal/token segments -/

/-- A template segment: literal text, or one placeholder token
`{{ws1.key ws2}}`. -/
inductive Seg where
  | lit (s : String)
  | tok (ws1 : String) (key : String) (ws2 : String)

def segText : Seg → String
  | .lit s => s
  | .tok w1 key w2 => "\x7b\x7b" ++ w1 ++ "." ++ key ++ w2 ++ "\x7d\x7d"

def segsText : List Seg → String
  | [] => ""
  | sg :: rest => segText sg ++ segsText rest

/-- The specified rendering of one segment: a bound token is substituted by
the value's natural string form (scalars) or canonical JSON text
(objects/arrays); an unbound token stays verbatim; literal text is copied. -/
def renderSeg (data : List (String × Json)) : Seg → String
  | .lit s => s
  | .tok w1 key w2 =>
    match objGet data key with
    | some v => if v.isObjectType then stringify v else jsString v
    | none => segText (.tok w1 key w2)

def segsRendered (data : List (String × Json)) : List Seg → String
  | [] => ""
  | sg :: rest => renderSeg data sg ++ segsRendered data rest

/-- Well-formedness of a segment list: literal text carries no `{`
(so it can never start a token), token whitespace is whitespace, and token
keys are nonempty identifier text. -/
def wfSeg : Seg → Bool
  | .lit s => s.data.all (fun c => c != '{')
  | .tok w1 key w2 =>
    w1.data.all jsWhitespace && w2.data.all jsWhitespace &&
    !key.data.isEmpty && key.data.all wordChar

def wfSegs (segs : List Seg) : Bool := segs.all wfSeg

theorem string_mk_data (s : String) : String.mk s.data = s := by
  cases s
  rfl

theorem segText_tok_data (w1 key w2 : String) :
    (segText (.tok w1 key w2)).data = tokChars w1.data key.data w2.data := by
  show ("\x7b\x7b" ++ w1 ++ "." ++ key ++ w2 ++ "\x7d\x7d").data = _
  simp only [String.data_append]
  simp [tokChars, List.append_assoc]

theorem renderChars_segs (data : List (String × Json)) (segs : List Seg)
    (hwf : wfSegs segs = true) :
    renderChars data (segsText segs).data = (segsRendered data segs).data := by
  induction segs with
  | nil => rfl
  | cons sg rest ih =>
    unfold wfSegs at hwf
    rw [List.all_cons, Bool.and_eq_true] at hwf
    have hsg := hwf.1
    have hrest := hwf.2
    show renderChars data (segText sg ++ segsText rest).data =
      (renderSeg data sg ++ segsRendered data rest).data
    rw [String.data_append, String.data_append]
    cases sg with
    | lit s =>
      unfold wfSeg at hsg
      have hlit : ∀ c ∈ s.data, c ≠ '{' := by
        intro c hc
        have := List.all_eq_true.mp hsg c hc
        simpa using this
      have hst : (segText (Seg.lit s)).data = s.data := rfl
      rw [hst, renderChars_lit_prefix data s.data _ hlit, ih hrest]
      rfl
    | tok w1 key w2 =>
      unfold wfSeg at hsg
      rw [Bool.and_eq_true, Bool.and_eq_true, Bool.and_eq_true] at hsg
      obtain ⟨⟨⟨hw1, hw2⟩, hk1⟩, hk2⟩ := hsg
      have hw1' : ∀ c ∈ w1.data, jsWhitespace c = true := List.all_eq_true.mp hw1
      have hw2' : ∀ c ∈ w2.data, jsWhitespace c = true := List.all_eq_true.mp hw2
      have hk1' : key.data ≠ [] := by
        intro he
        rw [Bool.not_eq_true'] at hk1
        rw [he] at hk1
        simp at hk1
      have hk2' : ∀ c ∈ key.data, wordChar c = true := List.all_eq_true.mp hk2
      rw [segText_tok_data]
      have htok := tryToken_token w1.data key.data w2.data
        (segsText rest).data hw1' hw2' hk1' hk2'
      cases hc : tokChars w1.data key.data w2.data ++ (segsText rest).data with
      | nil => exact absurd hc (by simp [tokChars])
      | cons c cs =>
        rw [hc] at htok
        rw [renderChars_cons_some data c cs _ _ _ htok]
        rw [string_mk_data, ih hrest]
        congr 1
        unfold renderReplacement
        show (match objGet data key with
          | some v => (if v.isObjectType then stringify v else jsString v).data
          | none => tokChars w1.data key.data w2.data) =
          (renderSeg data (.tok w1 key w2)).data
        unfold renderSeg
        show (match objGet data key with
          | some v => (if v.isObjectType then stringify v else jsString v).data
          | none => tokChars w1.data key.data w2.data) =
          (match objGet data key with
            | some v => if v.isObjectType then stringify v else jsString v
            | none => segText (.tok w1 key w2)).data
        cases objGet data key with
        | some v => rfl
        | none =>
          show tokChars w1.data key.data w2.data =
            (segText (.tok w1 key w2)).data
          rw [segText_tok_data]

/-- C4: for a template assembled from literal segments (containing no brace)
and placeholder tokens, `renderTemplate` substitutes every token whose
identifier is bound (scalars via their natural string form, objects/arrays
via their canonical JSON text) and leaves every unbound token verbatim,
copying literal text unchanged. -/
theorem C4_renderTemplate_segs (segs : List Seg)
    (data : List (String × Json)) (hwf : wfSegs segs = true) :
    renderTemplate (segsText segs) data = segsRendered data segs := by
  unfold renderTemplate
  rw [renderChars_segs data segs hwf, string_mk_data]

/-- Witness for C4: the two spec examples. -/
theorem C4_witness :
    renderTemplate "{{ .x }} and {{ .y }}" [("x", Json.num 3)] =
      "3 and {{ .y }}" ∧
    renderTemplate "{{ .items }}" [("items", Json.arr [Json.num 1, Json.num 2])] =
      "[1,2]" := by
  constructor
  · have h := C4_renderTemplate_segs
      [Seg.tok " " "x" " ", Seg.lit " and ", Seg.tok " " "y" " "]
      [("x", Json.num 3)] (by decide)
    have e1 : segsText [Seg.tok " " "x" " ", Seg.lit " and ",
        Seg.tok " " "y" " "] = "{{ .x }} and {{ .y }}" := rfl
    have e2 : segsRendered [("x", Json.num 3)]
        [Seg.tok " " "x" " ", Seg.lit " and ", Seg.tok " " "y" " "] =
        "3 and {{ .y }}" := rfl
    rw [e1, e2] at h
    exact h
  · have h := C4_renderTemplate_segs [Seg.tok " " "items" " "]
      [("items", Json.arr [Json.num 1, Json.num 2])] (by decide)
    have e1 : segsText [Seg.tok " " "items" " "] = "{{ .items }}" := rfl
    have e2 : segsRendered [("items", Json.arr [Json.num 1, Json.num 2])]
        [Seg.tok " " "items" " "] = "[1,2]" := rfl
    rw [e1, e2] at h
    exact h

/-! ### Parser: `parseSource` (src/src/parser.ts lines 27-80) -/

/-- `String.prototype.trim()`: strip leading and trailing JS whitespace. -/
def jsTrim (s : String) : String :=
  ⟨((s.data.dropWhile jsWhitespace).reverse.dropWhile jsWhitespace).reverse⟩

def dashes : List Char := ['-', '-', '-']

/-- Index of the first occurrence of `pat` in a character list (JS
`String.prototype.indexOf`, `none` for `-1`). -/
def findSub (pat : List Char) : List Char → Option Nat
  | [] => if pat.isEmpty then some 0 else none
  | c :: cs =>
    if List.isPrefixOf pat (c :: cs) then some 0
    else (findSub pat cs).map (fun n => n + 1)

/-- `trimmed.startsWith("---")` (parser.ts line 34). -/
def startsOk (source : String) : Bool :=
  List.isPrefixOf dashes (jsTrim source).data

/-- `trimmed.indexOf("---", 3)` (parser.ts line 41). -/
def closeIdx (source : String) : Option Nat :=
  (findSub dashes ((jsTrim source).data.drop 3)).map (fun n => n + 3)

/-- `trimmed.slice(3, secondDash).trim()` (parser.ts line 48). -/
def fmRaw (source : String) (k : Nat) : String :=
  jsTrim ⟨((jsTrim source).data.drop 3).take (k - 3)⟩

/-- `trimmed.slice(secondDash + 3).trim()` (parser.ts line 49). -/
def bodyAfter (source : String) (k : Nat) : String :=
  jsTrim ⟨(jsTrim source).data.drop (k + 3)⟩

structure MarkdownlangProgram where
  name : String
  description : String
  input : Json
  output : Json
  imports : Option (List String)
  body : String
  sourcePath : String

/-- The distinct `throw new Error(...)` sites of `parseSource`. -/
inductive ParseError where
  | notStartWithDashes
  | missingClosing
  | yamlError
  | frontmatterNotObject
  | missingField (f : String)
deriving DecidableEq

def mandatoryFields : List String := ["name", "description", "input", "output"]

/-- JS `field in frontmatter` restricted to own properties (adequate for the
four mandatory field names, which are not inherited properties). -/
def hasField (j : Json) (f : String) : Bool :=
  (jsEntries j).any (fun p => decide (p.1 = f))

/-- The first mandatory field absent from the frontmatter (the loop at
parser.ts lines 61-67 throws at the first missing one). -/
def firstMissing (fm : Json) : Option String :=
  mandatoryFields.find? (fun f => ! hasField fm f)

/-- JS property read `j[f]`, with `undefined` collapsed to `null` (only the
`Array.isArray` test and `String(...)` conversions observe the difference,
and they treat the two alike for our purposes). -/
def jget (j : Json) (f : String) : Json :=
  match (jsEntries j).find? (fun p => decide (p.1 = f)) with
  | some p => p.2
  | none => Json.null

/-- The record literal returned by `parseSource` (parser.ts lines 69-79). -/
def mkProgram (fm : Json) (body sourcePath : String) : MarkdownlangProgram :=
  { name := jsString (jget fm "name")
    description := jsString (jget fm "description")
    input := jget fm "input"
    output := jget fm "output"
    imports :=
      match jget fm "imports" with
      | Json.arr xs => some (xs.map jsString)
      | _ => none
    body := body
    sourcePath := sourcePath }

/-- The part of `parseSource` after the closing delimiter has been located,
with `yaml.load` abstracted as an oracle (`none` = the YAML parser threw). -/
def parseAfterClose (yload : String → Option Json) (source sourcePath : String)
    (k : Nat) : Except ParseError MarkdownlangProgram :=
  match yload (fmRaw source k) with
  | none => Except.error ParseError.yamlError
  | some fm =>
    if fm.truthy && fm.isObjectType then
      match firstMissing fm with
      | some f => Except.error (ParseError.missingField f)
      | none => Except.ok (mkProgram fm (bodyAfter source k) sourcePath)
    else Except.error ParseError.frontmatterNotObject

/-- `parseSource` (parser.ts lines 27-80). -/
def parseSource (yload : String → Option Json) (source sourcePath : String) :
    Except ParseError MarkdownlangProgram :=
  if startsOk source then
    match closeIdx source with
    | none => Except.error ParseError.missingClosing
    | some k => parseAfterClose yload source sourcePath k
  else Except.error ParseError.notStartWithDashes

def exceptIsOk {ε α : Type} : Except ε α → Bool
  | Except.ok _ => true
  | Except.error _ => false

/-- The first line of a string (up to the first newline), for stating the
specification's notion of "begins with a line consisting of exactly `---`". -/
def firstLine (s : String) : String :=
  ⟨s.data.takeWhile (fun c => ! decide (c = '\n'))⟩

/-- Specification-side predicate: the source begins with a line consisting of
exactly `---`. -/
def firstLineIsDashes (s : String) : Bool := decide (firstLine s = "---")

/-! ### Runner: message loop and tool dispatch (src/src/runner.ts) -/

structure ToolCall where
  id : String
  name : String
  arguments : String

/-- The provider's choice message: a possibly-empty list of tool calls and an
optional text content (JS `null`/`undefined` content is `none`). -/
structure ProviderMsg where
  tool_calls : List ToolCall
  content : Option String

inductive Msg where
  | system (content : String)
  | user (content : String)
  | assistant (m : ProviderMsg)
  | tool (id : String) (content : String)

/-- The distinct failure modes of `run` / `executeToolCall` / `parse`. -/
inductive RunError where
  | iterationLimitExceeded
  | emptyResponse
  | malformedOutput
  | noImportsDeclared (tool : String)
  | unknownTool (tool : String)
  | sourceNotFound (path : String)
  | malformedProgram (e : ParseError)
  | badToolArguments
deriving DecidableEq

structure RunOptions where
  model : Option String
  verbose : Option Bool

/-- The defaulted `options` parameter `{}` of `run(program, input)`. -/
def defaultRunOptions : RunOptions := { model := none, verbose := none }

/-- `options.model ?? "gpt-4o-mini"` (runner.ts line 87). -/
def resolvedModel (o : RunOptions) : String := o.model.getD "gpt-4o-mini"

/-- Truthiness of `options.verbose`. -/
def resolvedVerbose (o : RunOptions) : Bool := o.verbose.getD false

/-- The system message assembled at runner.ts lines 110-115. -/
def systemMessage (p : MarkdownlangProgram) : String :=
  "You are executing a markdownlang program called " ++ "\"" ++ p.name ++
  "\"." ++ " " ++ p.description ++ " " ++
  "Follow the instructions precisely and return the result as JSON matching the required output schema." ++
  " " ++
  "Be precise and deterministic. Do not add extra commentary — just return valid JSON."

/-- The initial message list of `run` (runner.ts lines 107-121). -/
def initMsgs (p : MarkdownlangProgram) (input : List (String × Json)) : List Msg :=
  [Msg.system (systemMessage p), Msg.user (renderTemplate p.body input)]

/-- The tool-call loop of runner.ts lines 146-153: execute each call in order
and turn each result into a `role: "tool"` message carrying
`JSON.stringify(toolResult)`; a thrown error propagates. -/
def execTools (toolExec : ToolCall → Except RunError Json) :
    List ToolCall → Except RunError (List Msg)
  | [] => Except.ok []
  | tc :: rest =>
    match toolExec tc with
    | Except.error e => Except.error e
    | Except.ok v =>
      match execTools toolExec rest with
      | Except.error e => Except.error e
      | Except.ok ms => Except.ok (Msg.tool tc.id (stringify v) :: ms)

/-- Runner.ts lines 158-171: `if (!content) throw EmptyResponse` (note `!""`
is `true` in JS), then `JSON.parse(content)` with a parse failure propagating
as a thrown error. -/
def handleContent (jsonParse : String → Option Json) (content : Option String) :
    Except RunError Json :=
  match content with
  | none => Except.error RunError.emptyResponse
  | some s =>
    if s = "" then Except.error RunError.emptyResponse
    else
      match jsonParse s with
      | none => Except.error RunError.malformedOutput
      | some v => Except.ok v

/-- The agentic loop of runner.ts lines 124-175: `maxIterations` is the fuel
(10 at entry), and the second component counts provider round-trips. -/
def runLoop (provider : List Msg → ProviderMsg)
    (toolExec : ToolCall → Except RunError Json)
    (jsonParse : String → Option Json) : Nat → List Msg → Except RunError Json × Nat
  | 0, _ => (Except.error RunError.iterationLimitExceeded, 0)
  | fuel + 1, msgs =>
    if 0 < (provider msgs).tool_calls.length then
      match execTools toolExec (provider msgs).tool_calls with
      | Except.error e => (Except.error e, 1)
      | Except.ok toolMsgs =>
        ((runLoop provider toolExec jsonParse fuel
            (msgs ++ Msg.assistant (provider msgs) :: toolMsgs)).1,
         (runLoop provider toolExec jsonParse fuel
            (msgs ++ Msg.assistant (provider msgs) :: toolMsgs)).2 + 1)
    else (handleContent jsonParse (provider msgs).content, 1)

/-- `run(program, input, options)` (runner.ts lines 82-175), with the OpenAI
client abstracted as a `provider` oracle keyed by the resolved model, tool
execution and `JSON.parse` as oracles; returns the outcome together with the
number of provider round-trips performed. -/
def run (provider : String → List Msg → ProviderMsg)
    (toolExec : ToolCall → Except RunError Json)
    (jsonParse : String → Option Json)
    (program : MarkdownlangProgram) (input : List (String × Json))
    (options : RunOptions) : Except RunError Json × Nat :=
  runLoop (provider (resolvedModel options)) toolExec jsonParse 10
    (initMsgs program input)

/-- `parse(importPath)` (parser.ts lines 18-22): read the file (a missing
file throws, the spec's SourceNotFound) then `parseSource`. -/
def parseProgramFile (files : String → Option String)
    (yload : String → Option Json) (path : String) :
    Except RunError MarkdownlangProgram :=
  match files path with
  | none => Except.error (RunError.sourceNotFound path)
  | some content =>
    match parseSource yload content path with
    | Except.error e => Except.error (RunError.malformedProgram e)
    | Except.ok p => Except.ok p

/-- The scan over `parentProgram.imports` (runner.ts lines 214-222): parse
each import in order; on the first whose name matches, `JSON.parse` the
arguments and run the imported program with NO options argument, i.e. with
`defaultRunOptions`. -/
def findTool (files : String → Option String) (yload : String → Option Json)
    (runNested : MarkdownlangProgram → Json → RunOptions → Except RunError Json × Nat)
    (jsonParse : String → Option Json)
    (tc : ToolCall) : List String → Except RunError Json
  | [] => Except.error (RunError.unknownTool tc.name)
  | path :: rest =>
    match parseProgramFile files yload path with
    | Except.error e => Except.error e
    | Except.ok imported =>
      if imported.name = tc.name then
        match jsonParse tc.arguments with
        | none => Except.error RunError.badToolArguments
        | some input => (runNested imported input defaultRunOptions).1
      else findTool files yload runNested jsonParse tc rest

/-- `executeToolCall(toolCall, parentProgram)` (runner.ts lines 205-223). -/
def executeToolCall (files : String → Option String)
    (yload : String → Option Json)
    (runNested : MarkdownlangProgram → Json → RunOptions → Except RunError Json × Nat)
    (jsonParse : String → Option Json)
    (tc : ToolCall) (parentProgram : MarkdownlangProgram) :
    Except RunError Json :=
  match parentProgram.imports with
  | none => Except.error (RunError.noImportsDeclared tc.name)
  | some paths => findTool files yload runNested jsonParse tc paths

/-! ### Concrete fixtures used by witnesses and counterexamples -/

def cSrc : String :=
  "--- \nname: a\ndescription: b\ninput: 1\noutput: 1\n---\nbody"

def wSrc : String :=
  "---\nname: a\ndescription: b\ninput: 1\noutput: 1\n---\nhello"

def cFm : String := "name: a\ndescription: b\ninput: 1\noutput: 1"

def cFmJson : Json :=
  Json.obj [("name", Json.str "a"), ("description", Json.str "b"),
    ("input", Json.num 1), ("output", Json.num 1)]

/-- A `yaml.load` stub agreeing with the real YAML parser on the only
frontmatter string the fixtures feed it. -/
def yamlStub : String → Option Json :=
  fun s => if s = cFm then some cFmJson else none

def demoProgram : MarkdownlangProgram :=
  { name := "demo", description := "d", input := Json.obj [],
    output := Json.obj [], imports := none, body := "hi",
    sourcePath := "demo.mdlang" }

def alwaysToolProvider : String → List Msg → ProviderMsg :=
  fun _ _ =>
    { tool_calls := [{ id := "1", name := "t", arguments := "\x7b\x7d" }],
      content := none }

def emptyContentProvider : String → List Msg → ProviderMsg :=
  fun _ _ => { tool_calls := [], content := some "" }

def finalProvider : String → List Msg → ProviderMsg :=
  fun _ _ => { tool_calls := [], content := some "\x7b\x7d" }

/-- A `JSON.parse` stub agreeing with the real one on the inputs the
fixtures feed it (the empty string does not parse). -/
def jsonParseStub : String → Option Json :=
  fun s => if s = "\x7b\x7d" then some (Json.obj []) else none

def filesStub : String → Option String :=
  fun p => if p = "tool.mdlang" then some wSrc else none

def ghostCall : ToolCall := { id := "1", name := "ghost", arguments := "\x7b\x7d" }

def parentWithImport : MarkdownlangProgram :=
  { name := "demo", description := "d", input := Json.obj [],
    output := Json.obj [], imports := some ["tool.mdlang"], body := "hi",
    sourcePath := "demo.mdlang" }

/-- C6: amended. `parseSource` fails exactly when the trimmed source does not
START with the three characters `---` (not necessarily a whole line), or those
characters do not occur again at any position from index 3 on (not necessarily
as a whole line), or the YAML load of the text between the delimiters throws,
or yields a value that is falsy or not of `typeof "object"`, or one of the
mandatory keys name, description, input, output is absent; on success the body
is the remainder after the closing `---` occurrence, trimmed. -/
theorem C6_amended (yload : String → Option Json) (source sourcePath : String) :
    (startsOk source = false →
      parseSource yload source sourcePath =
        Except.error ParseError.notStartWithDashes) ∧
    (startsOk source = true → closeIdx source = none →
      parseSource yload source sourcePath =
        Except.error ParseError.missingClosing) ∧
    (∀ k, startsOk source = true → closeIdx source = some k →
      yload (fmRaw source k) = none →
      parseSource yload source sourcePath = Except.error ParseError.yamlError) ∧
    (∀ k fm, startsOk source = true → closeIdx source = some k →
      yload (fmRaw source k) = some fm →
      (fm.truthy && fm.isObjectType) = false →
      parseSource yload source sourcePath =
        Except.error ParseError.frontmatterNotObject) ∧
    (∀ k fm f, startsOk source = true → closeIdx source = some k →
      yload (fmRaw source k) = some fm →
      (fm.truthy && fm.isObjectType) = true → firstMissing fm = some f →
      parseSource yload source sourcePath =
        Except.error (ParseError.missingField f)) ∧
    (∀ k fm, startsOk source = true → closeIdx source = some k →
      yload (fmRaw source k) = some fm →
      (fm.truthy && fm.isObjectType) = true → firstMissing fm = none →
      parseSource yload source sourcePath =
        Except.ok (mkProgram fm (bodyAfter source k) sourcePath) ∧
      (mkProgram fm (bodyAfter source k) sourcePath).body = bodyAfter source k) := by
  refine ⟨?_, ?_, ?_, ?_, ?_, ?_⟩
  · intro h1
    simp [parseSource, h1]
  · intro h1 h2
    simp [parseSource, h1, h2]
  · intro k h1 h2 h3
    simp [parseSource, h1, h2, parseAfterClose, h3]
  · intro k fm h1 h2 h3 h4
    simp [parseSource, h1, h2, parseAfterClose, h3, h4]
  · intro k fm f h1 h2 h3 h4 h5
    simp [parseSource, h1, h2, parseAfterClose, h3, h4, h5]
  · intro k fm h1 h2 h3 h4 h5
    refine ⟨?_, rfl⟩
    simp [parseSource, h1, h2, parseAfterClose, h3, h4, h5]

/-- Counterexample for C6: a source whose first line is `--- ` (with a
trailing space), hence not a line consisting of exactly `---`, which the
claim says must fail — yet `parseSource` succeeds, because the code only
checks `startsWith("---")` and `indexOf("---", 3)`. -/
theorem C6_counterexample :
    firstLineIsDashes cSrc = false ∧
    exceptIsOk (parseSource yamlStub cSrc "inline") = true := ⟨rfl, rfl⟩

/-- Witness for C6: a fully well-formed source parses, with the body equal to
the trimmed remainder after the closing delimiter. -/
theorem C6_witness :
    parseSource yamlStub wSrc "w" =
      Except.ok (mkProgram cFmJson "hello" "w") ∧
    (mkProgram cFmJson "hello" "w").body = "hello" := by
  have h := (C6_amended yamlStub wSrc "w").2.2.2.2.2 46 cFmJson rfl rfl rfl rfl rfl
  have hb : bodyAfter wSrc 46 = "hello" := rfl
  rw [hb] at h
  exact h

/-! ### Run-loop lemmas -/

theorem runLoop_zero (p : List Msg → ProviderMsg)
    (t : ToolCall → Except RunError Json) (j : String → Option Json)
    (msgs : List Msg) :
    runLoop p t j 0 msgs = (Except.error RunError.iterationLimitExceeded, 0) := rfl

theorem runLoop_succ (p : List Msg → ProviderMsg)
    (t : ToolCall → Except RunError Json) (j : String → Option Json)
    (fuel : Nat) (msgs : List Msg) :
    runLoop p t j (fuel + 1) msgs =
      if 0 < (p msgs).tool_calls.length then
        match execTools t (p msgs).tool_calls with
        | Except.error e => (Except.error e, 1)
        | Except.ok toolMsgs =>
          ((runLoop p t j fuel (msgs ++ Msg.assistant (p msgs) :: toolMsgs)).1,
           (runLoop p t j fuel (msgs ++ Msg.assistant (p msgs) :: toolMsgs)).2 + 1)
      else (handleContent j (p msgs).content, 1) := rfl

theorem runLoop_count_le (p : List Msg → ProviderMsg)
    (t : ToolCall → Except RunError Json) (j : String → Option Json) :
    ∀ (fuel : Nat) (msgs : List Msg), (runLoop p t j fuel msgs).2 ≤ fuel := by
  intro fuel
  induction fuel with
  | zero => intro msgs; exact Nat.le_refl 0
  | succ fuel ih =>
    intro msgs
    rw [runLoop_succ]
    by_cases h : 0 < (p msgs).tool_calls.length
    · rw [if_pos h]
      cases he : execTools t (p msgs).tool_calls with
      | error e =>
        show 1 ≤ fuel + 1
        exact Nat.succ_le_succ (Nat.zero_le fuel)
      | ok ms =>
        show (runLoop p t j fuel (msgs ++ Msg.assistant (p msgs) :: ms)).2 + 1 ≤
          fuel + 1
        exact Nat.succ_le_succ (ih _)
    · rw [if_neg h]
      exact Nat.succ_le_succ (Nat.zero_le fuel)

theorem execTools_cons (t : ToolCall → Except RunError Json) (tc : ToolCall)
    (rest : List ToolCall) :
    execTools t (tc :: rest) =
      match t tc with
      | Except.error e => Except.error e
      | Except.ok v =>
        match execTools t rest with
        | Except.error e => Except.error e
        | Except.ok ms => Except.ok (Msg.tool tc.id (stringify v) :: ms) := rfl

theorem execTools_ok (t : ToolCall → Except RunError Json)
    (ht : ∀ tc, ∃ v, t tc = Except.ok v) :
    ∀ tcs, ∃ ms, execTools t tcs = Except.ok ms := by
  intro tcs
  induction tcs with
  | nil => exact ⟨[], rfl⟩
  | cons tc rest ih =>
    obtain ⟨v, hv⟩ := ht tc
    obtain ⟨ms, hms⟩ := ih
    refine ⟨Msg.tool tc.id (stringify v) :: ms, ?_⟩
    rw [execTools_cons, hv, hms]

theorem runLoop_all_tools (p : List Msg → ProviderMsg)
    (t : ToolCall → Except RunError Json) (j : String → Option Json)
    (hp : ∀ msgs, 0 < (p msgs).tool_calls.length)
    (ht : ∀ tc, ∃ v, t tc = Except.ok v) :
    ∀ (fuel : Nat) (msgs : List Msg),
      runLoop p t j fuel msgs = (Except.error RunError.iterationLimitExceeded, fuel) := by
  intro fuel
  induction fuel with
  | zero => intro msgs; rfl
  | succ fuel ih =>
    intro msgs
    rw [runLoop_succ, if_pos (hp msgs)]
    obtain ⟨ms, hms⟩ := execTools_ok t ht (p msgs).tool_calls
    rw [hms]
    show ((runLoop p t j fuel (msgs ++ Msg.assistant (p msgs) :: ms)).1,
      (runLoop p t j fuel (msgs ++ Msg.assistant (p msgs) :: ms)).2 + 1) = _
    rw [ih]

/-- C3: the agentic loop never makes more than 10 provider round-trips, and
against a provider that returns a tool call on every response (with tool
execution succeeding), `run` fails with the iteration-limit error after
exactly 10 round-trips. -/
theorem C3_loop_bound (provider : String → List Msg → ProviderMsg)
    (toolExec : ToolCall → Except RunError Json)
    (jsonParse : String → Option Json)
    (program : MarkdownlangProgram) (input : List (String × Json))
    (options : RunOptions) :
    (run provider toolExec jsonParse program input options).2 ≤ 10 ∧
    ((∀ m msgs, 0 < ((provider m msgs).tool_calls.length)) →
     (∀ tc, ∃ v, toolExec tc = Except.ok v) →
     run provider toolExec jsonParse program input options =
       (Except.error RunError.iterationLimitExceeded, 10)) := by
  constructor
  · exact runLoop_count_le _ _ _ 10 _
  · intro hp ht
    exact runLoop_all_tools (provider (resolvedModel options)) toolExec jsonParse
      (fun msgs => hp (resolvedModel options) msgs) ht 10 (initMsgs program input)

/-- Witness for C3: a concrete always-tool-calling provider stub makes `run`
fail with the iteration-limit error at round-trip count exactly 10. -/
theorem C3_witness :
    run alwaysToolProvider (fun _ => Except.ok Json.null) (fun _ => none)
      demoProgram [] defaultRunOptions =
      (Except.error RunError.iterationLimitExceeded, 10) :=
  (C3_loop_bound alwaysToolProvider (fun _ => Except.ok Json.null) (fun _ => none)
      demoProgram [] defaultRunOptions).2
    (fun _ _ => Nat.one_pos)
    (fun _ => ⟨Json.null, rfl⟩)

/-- C5: amended. When the provider's response carries no tool calls, `run`
fails with EmptyResponse if the content is absent OR is the empty string
(JS `!content` is true for `""`), fails with MalformedOutput if the content
is a nonempty string that does not parse as JSON, and otherwise returns the
parsed value; in each case after exactly one round-trip. -/
theorem C5_amended (provider : String → List Msg → ProviderMsg)
    (toolExec : ToolCall → Except RunError Json)
    (jsonParse : String → Option Json)
    (program : MarkdownlangProgram) (input : List (String × Json))
    (options : RunOptions) (pm : ProviderMsg)
    (hpm : provider (resolvedModel options) (initMsgs program input) = pm)
    (hnotool : pm.tool_calls.length = 0) :
    ((pm.content = none ∨ pm.content = some "") →
      run provider toolExec jsonParse program input options =
        (Except.error RunError.emptyResponse, 1)) ∧
    (∀ s, pm.content = some s → s ≠ "" → jsonParse s = none →
      run provider toolExec jsonParse program input options =
        (Except.error RunError.malformedOutput, 1)) ∧
    (∀ s v, pm.content = some s → s ≠ "" → jsonParse s = some v →
      run provider toolExec jsonParse program input options =
        (Except.ok v, 1)) := by
  have hten : (10 : Nat) = 9 + 1 := rfl
  have hrun : run provider toolExec jsonParse program input options =
      (handleContent jsonParse pm.content, 1) := by
    show runLoop (provider (resolvedModel options)) toolExec jsonParse 10
      (initMsgs program input) = _
    rw [hten, runLoop_succ, hpm, if_neg (by omega : ¬ 0 < pm.tool_calls.length)]
  refine ⟨?_, ?_, ?_⟩
  · intro hc
    rcases hc with hc | hc <;> rw [hrun, hc] <;> rfl
  · intro s hs hne hp
    rw [hrun, hs]
    show (if s = "" then Except.error RunError.emptyResponse
      else match jsonParse s with
        | none => Except.error RunError.malformedOutput
        | some v => Except.ok v, 1) = _
    rw [if_neg hne, hp]
  · intro s v hs hne hp
    rw [hrun, hs]
    show (if s = "" then Except.error RunError.emptyResponse
      else match jsonParse s with
        | none => Except.error RunError.malformedOutput
        | some v => Except.ok v, 1) = _
    rw [if_neg hne, hp]

/-- Counterexample for C5: a provider returning present-but-empty content
`""` — which does not parse as JSON — makes `run` fail with EmptyResponse,
not MalformedOutput, because the code's `!content` check is true for the
empty string. -/
theorem C5_counterexample :
    run emptyContentProvider (fun _ => Except.ok Json.null) (fun _ => none)
      demoProgram [] defaultRunOptions =
      (Except.error RunError.emptyResponse, 1) ∧
    (emptyContentProvider "gpt-4o-mini" (initMsgs demoProgram [])).content =
      some "" ∧
    RunError.emptyResponse ≠ RunError.malformedOutput := by
  refine ⟨rfl, rfl, ?_⟩
  decide

/-- Witness for C5: a provider returning parseable final content makes `run`
return the parsed value after one round-trip. -/
theorem C5_witness :
    run finalProvider (fun _ => Except.ok Json.null) jsonParseStub
      demoProgram [] defaultRunOptions = (Except.ok (Json.obj []), 1) :=
  (C5_amended finalProvider (fun _ => Except.ok Json.null) jsonParseStub
      demoProgram [] defaultRunOptions
      { tool_calls := [], content := some "\x7b\x7d" } rfl rfl).2.2
    "\x7b\x7d" (Json.obj []) rfl (by decide) rfl

/-! ### Tool-dispatch lemmas -/

theorem findTool_cons_err (files : String → Option String)
    (yload : String → Option Json)
    (runNested : MarkdownlangProgram → Json → RunOptions → Except RunError Json × Nat)
    (jsonParse : String → Option Json) (tc : ToolCall)
    (path : String) (rest : List String) (e : RunError)
    (h : parseProgramFile files yload path = Except.error e) :
    findTool files yload runNested jsonParse tc (path :: rest) =
      Except.error e := by
  show (match parseProgramFile files yload path with
    | Except.error e => Except.error e
    | Except.ok imported =>
      if imported.name = tc.name then
        match jsonParse tc.arguments with
        | none => Except.error RunError.badToolArguments
        | some input => (runNested imported input defaultRunOptions).1
      else findTool files yload runNested jsonParse tc rest) = _
  rw [h]

theorem findTool_cons_ok (files : String → Option String)
    (yload : String → Option Json)
    (runNested : MarkdownlangProgram → Json → RunOptions → Except RunError Json × Nat)
    (jsonParse : String → Option Json) (tc : ToolCall)
    (path : String) (rest : List String) (prog : MarkdownlangProgram)
    (h : parseProgramFile files yload path = Except.ok prog) :
    findTool files yload runNested jsonParse tc (path :: rest) =
      if prog.name = tc.name then
        (match jsonParse tc.arguments with
         | none => Except.error RunError.badToolArguments
         | some input => (runNested prog input defaultRunOptions).1)
      else findTool files yload runNested jsonParse tc rest := by
  show (match parseProgramFile files yload path with
    | Except.error e => Except.error e
    | Except.ok imported =>
      if imported.name = tc.name then
        match jsonParse tc.arguments with
        | none => Except.error RunError.badToolArguments
        | some input => (runNested imported input defaultRunOptions).1
      else findTool files yload runNested jsonParse tc rest) = _
  rw [h]

theorem findTool_all_miss (files : String → Option String)
    (yload : String → Option Json)
    (runNested : MarkdownlangProgram → Json → RunOptions → Except RunError Json × Nat)
    (jsonParse : String → Option Json) (tc : ToolCall) :
    ∀ paths,
      (∀ path ∈ paths, ∃ prog,
        parseProgramFile files yload path = Except.ok prog ∧
        prog.name ≠ tc.name) →
      findTool files yload runNested jsonParse tc paths =
        Except.error (RunError.unknownTool tc.name) := by
  intro paths
  induction paths with
  | nil => intro _; rfl
  | cons path rest ih =>
    intro hall
    obtain ⟨prog, hok, hne⟩ := hall path (List.mem_cons_self path rest)
    rw [findTool_cons_ok files yload runNested jsonParse tc path rest prog hok,
      if_neg hne]
    exact ih (fun p hp => hall p (List.mem_cons_of_mem path hp))

/-- C7: `executeToolCall` fails with NoImportsDeclared when the parent
program declares no imports, and with UnknownTool when every import loads to
a program whose name differs from the requested tool name. -/
theorem C7_tool_errors (files : String → Option String)
    (yload : String → Option Json)
    (runNested : MarkdownlangProgram → Json → RunOptions → Except RunError Json × Nat)
    (jsonParse : String → Option Json)
    (tc : ToolCall) (parent : MarkdownlangProgram) :
    (parent.imports = none →
      executeToolCall files yload runNested jsonParse tc parent =
        Except.error (RunError.noImportsDeclared tc.name)) ∧
    (∀ paths, parent.imports = some paths →
      (∀ path ∈ paths, ∃ prog,
        parseProgramFile files yload path = Except.ok prog ∧
        prog.name ≠ tc.name) →
      executeToolCall files yload runNested jsonParse tc parent =
        Except.error (RunError.unknownTool tc.name)) := by
  constructor
  · intro h
    show (match parent.imports with
      | none => Except.error (RunError.noImportsDeclared tc.name)
      | some paths => findTool files yload runNested jsonParse tc paths) = _
    rw [h]
  · intro paths hps hall
    show (match parent.imports with
      | none => Except.error (RunError.noImportsDeclared tc.name)
      | some paths => findTool files yload runNested jsonParse tc paths) = _
    rw [hps]
    exact findTool_all_miss files yload runNested jsonParse tc paths hall

/-- Witness for C7: the spec example — a tool call named "ghost" against a
parent whose single import loads to a program named "a" — fails with
UnknownTool. -/
theorem C7_witness :
    executeToolCall filesStub yamlStub (fun _ _ _ => (Except.ok Json.null, 0))
      (fun _ => none) ghostCall parentWithImport =
      Except.error (RunError.unknownTool "ghost") := by
  have h := (C7_tool_errors filesStub yamlStub
      (fun _ _ _ => (Except.ok Json.null, 0)) (fun _ => none)
      ghostCall parentWithImport).2 ["tool.mdlang"] rfl ?_
  · exact h
  · intro path hpath
    have hpe : path = "tool.mdlang" := by
      simpa using hpath
    subst hpe
    exact ⟨mkProgram cFmJson "hello" "tool.mdlang", rfl, by decide⟩

theorem findTool_shape (files : String → Option String)
    (yload : String → Option Json)
    (runNested : MarkdownlangProgram → Json → RunOptions → Except RunError Json × Nat)
    (jsonParse : String → Option Json) (tc : ToolCall) :
    ∀ paths,
      (∃ e, findTool files yload runNested jsonParse tc paths =
        Except.error e) ∨
      (∃ imported input,
        findTool files yload runNested jsonParse tc paths =
          (runNested imported input defaultRunOptions).1) := by
  intro paths
  induction paths with
  | nil => exact Or.inl ⟨RunError.unknownTool tc.name, rfl⟩
  | cons path rest ih =>
    cases hp : parseProgramFile files yload path with
    | error e =>
      exact Or.inl ⟨e,
        findTool_cons_err files yload runNested jsonParse tc path rest e hp⟩
    | ok prog =>
      by_cases hname : prog.name = tc.name
      · cases hj : jsonParse tc.arguments with
        | none =>
          refine Or.inl ⟨RunError.badToolArguments, ?_⟩
          rw [findTool_cons_ok files yload runNested jsonParse tc path rest prog hp,
            if_pos hname, hj]
        | some input =>
          refine Or.inr ⟨prog, input, ?_⟩
          rw [findTool_cons_ok files yload runNested jsonParse tc path rest prog hp,
            if_pos hname, hj]
      · rw [findTool_cons_ok files yload runNested jsonParse tc path rest prog hp,
          if_neg hname]
        exact ih

/-- C10: the default options resolve to the model "gpt-4o-mini" and
non-verbose diagnostics, and every tool call either fails or runs the
matched imported program through the nested `run` with exactly those default
options — `executeToolCall` passes no options whatsoever, regardless of the
parent run's options. -/
theorem C10_nested_default_options (files : String → Option String)
    (yload : String → Option Json)
    (runNested : MarkdownlangProgram → Json → RunOptions → Except RunError Json × Nat)
    (jsonParse : String → Option Json)
    (tc : ToolCall) (parent : MarkdownlangProgram) :
    resolvedModel defaultRunOptions = "gpt-4o-mini" ∧
    resolvedVerbose defaultRunOptions = false ∧
    ((∃ e, executeToolCall files yload runNested jsonParse tc parent =
        Except.error e) ∨
     (∃ imported input,
        executeToolCall files yload runNested jsonParse tc parent =
          (runNested imported input defaultRunOptions).1)) := by
  refine ⟨rfl, rfl, ?_⟩
  cases him : parent.imports with
  | none =>
    refine Or.inl ⟨RunError.noImportsDeclared tc.name, ?_⟩
    show (match parent.imports with
      | none => Except.error (RunError.noImportsDeclared tc.name)
      | some paths => findTool files yload runNested jsonParse tc paths) = _
    rw [him]
  | some paths =>
    have hex : executeToolCall files yload runNested jsonParse tc parent =
        findTool files yload runNested jsonParse tc paths := by
      show (match parent.imports with
        | none => Except.error (RunError.noImportsDeclared tc.name)
        | some paths => findTool files yload runNested jsonParse tc paths) = _
      rw [him]
    rw [hex]
    exact findTool_shape files yload runNested jsonParse tc paths
